import Mathlib

/-!
Shallow embedding of the `schematics-organizer` connectivity core
(`src/circuit_elements/core/base/{pin,net,base_component,schematic}.py` and
`src/graph/{start_expansion,networkx_utils}.py`).

Python objects are modelled by explicit state passing:

* A `Net` object is a `NetData` value living in an allocation heap
  (`St.netHeap`); a Python reference to a `Net` is the heap index (`Nat`).
  Nets removed from the schematic registry stay in the heap, exactly as a
  Python object outlives its registry entry.
* A `Pin.net` back-reference is an `Option Nat` heap index.
* Components are registered by name (`Schematic._components`); a component
  object reachable from schematic operations is always a registry entry, so
  component identity is its (registry-unique) name.
* Each Python method that can raise becomes a function returning
  `Option Err × St` (or `Except Err α × St` when it returns a value): the
  returned state is the state at the moment the exception propagates, so
  mutations performed before a raise are preserved, as in Python.
-/

namespace SchemOrg

/-- Error kinds, one per distinct `raise` site exercised by the claims. -/
inductive Err where
  | Frozen
  | UnknownNet (name : String)
  | UnknownComponent (name : String)
  | NotRegistered (name : String)
  | UnknownPin (name : String)
  | PinIndexOutOfRange
  | AlreadyConnected
  | DuplicateNet (name : String)
  | DuplicateComponent (name : String)
  | InvalidPins
  | UnmergedNets
  | NoGround
  | MultipleGrounds
deriving DecidableEq, Repr

/-- `Pin`: index, name, and the back-reference to the owning net (a heap id). -/
structure Pin where
  index : Nat
  name : String
  net : Option Nat
deriving DecidableEq, Repr

instance : Inhabited Pin := ⟨⟨0, "", none⟩⟩

/-- `BaseComponent`: a name plus the ordered pin list. -/
structure Component where
  cname : String
  pins : List Pin
deriving DecidableEq, Repr

instance : Inhabited Component := ⟨⟨"", []⟩⟩

/-- A `Net` object: name, ground flag, and `_connections`
(component name ↦ set of pin indices, both in insertion order). -/
structure NetData where
  name : String
  is_ground : Bool
  connections : List (String × List Nat)
deriving DecidableEq, Repr

instance : Inhabited NetData := ⟨⟨"", false, []⟩⟩

/-- The `Schematic` state together with the heap of all `Net` objects ever
allocated.  `nets` and `components` are the insertion-ordered registries
(`_nets`, `_components`); `anon_net_counter` is `_anon_net_counter`. -/
structure St where
  netHeap : List NetData
  nets : List (String × Nat)
  components : List (String × Component)
  frozen : Bool
  anon_net_counter : Nat
deriving DecidableEq, Repr

/-- The empty schematic (`Schematic.__init__`). -/
def St.init : St := ⟨[], [], [], false, 0⟩

/-! ### Ordered-dictionary helpers (Python `dict` / `set` on small data) -/

/-- First-match lookup in an insertion-ordered association list. -/
def lookupKey (l : List (String × α)) (k : String) : Option α :=
  match l with
  | [] => none
  | (k2, v) :: rest => if k2 = k then some v else lookupKey rest k

/-- Point update of a list (no-op when out of range). -/
def modifyAt (l : List α) (i : Nat) (f : α → α) : List α :=
  match l, i with
  | [], _ => []
  | x :: xs, 0 => f x :: xs
  | x :: xs, n + 1 => x :: modifyAt xs n f

/-- `set.add`: append if absent. -/
def insertSet (s : List Nat) (i : Nat) : List Nat :=
  if i ∈ s then s else s ++ [i]

/-- `dict.setdefault(cn, set()).add(idx)` on a connections map. -/
def setdefaultAdd (conns : List (String × List Nat)) (cn : String) (idx : Nat) :
    List (String × List Nat) :=
  match conns with
  | [] => [(cn, [idx])]
  | (k, s) :: rest =>
    if k = cn then (k, insertSet s idx) :: rest
    else (k, s) :: setdefaultAdd rest cn idx

/-- `del d[k]`: `none` models the `KeyError` of deleting an absent key. -/
def delKey (l : List (String × α)) (k : String) : Option (List (String × α)) :=
  if (lookupKey l k).isSome then some (l.filter (fun p => p.1 ≠ k)) else none

/-! ### State accessors and primitive updates -/

/-- Dereference a net heap id. -/
def netAt (st : St) (nid : Nat) : NetData := st.netHeap.getD nid default

/-- Registered component by name. -/
def compAt? (st : St) (cn : String) : Option Component := lookupKey st.components cn

/-- Pin of a component at a list position. -/
def pinAt (c : Component) (pos : Nat) : Pin := c.pins.getD pos default

/-- Rewrite the registered component named `cn`. -/
def updateComp (st : St) (cn : String) (f : Component → Component) : St :=
  { st with components := st.components.map (fun p => if p.1 = cn then (p.1, f p.2) else p) }

/-- Assign `pin.net` for the pin at position `pos` of component `cn`. -/
def updatePinNet (st : St) (cn : String) (pos : Nat) (v : Option Nat) : St :=
  updateComp st cn (fun c => { c with pins := modifyAt c.pins pos (fun p => { p with net := v }) })

/-- Rewrite one heap net. -/
def modifyNetData (st : St) (nid : Nat) (f : NetData → NetData) : St :=
  { st with netHeap := modifyAt st.netHeap nid f }

/-- Record `(cn, idx)` in net `nid`'s `_connections`. -/
def addConn (st : St) (nid : Nat) (cn : String) (idx : Nat) : St :=
  modifyNetData st nid (fun nd => { nd with connections := setdefaultAdd nd.connections cn idx })

/-- `Net.degree`: total count of `(component, pin-index)` pairs. -/
def degree (nd : NetData) : Nat := (nd.connections.map (fun e => e.2.length)).sum

/-! ### Pin selectors -/

/-- A `pin: int | str` argument. -/
inductive PinSel where
  | idx (i : Int)
  | pname (s : String)
deriving DecidableEq, Repr

/-- Pin resolution in `Net.connect`: name lookup, or index with the explicit
`0 <= pin < len(component.pins)` bounds check.  Returns the list position. -/
def resolvePinStrict (c : Component) (sel : PinSel) : Except Err Nat :=
  match sel with
  | .pname s =>
    match c.pins.findIdx? (fun p => p.name = s) with
    | some pos => .ok pos
    | none => .error (.UnknownPin s)
  | .idx i =>
    if 0 ≤ i ∧ i < (c.pins.length : Int) then .ok i.toNat else .error .PinIndexOutOfRange

/-- Pin resolution in `Schematic.connect_pins`: name lookup via `comp.pin`,
or raw Python list indexing `comp.pins[i]` (negative indices wrap). -/
def resolvePinPy (c : Component) (sel : PinSel) : Except Err Nat :=
  match sel with
  | .pname s =>
    match c.pins.findIdx? (fun p => p.name = s) with
    | some pos => .ok pos
    | none => .error (.UnknownPin s)
  | .idx i =>
    if 0 ≤ (if i < 0 then i + c.pins.length else i) ∧
        (if i < 0 then i + c.pins.length else i) < (c.pins.length : Int) then
      .ok (if i < 0 then i + (c.pins.length : Int) else i).toNat
    else .error .PinIndexOutOfRange

/-! ### `Net.connect` -/

/-- `Net.connect(component, pin)` for net object `nid` and the registered
component named `cn`: resolve the pin, fail if it already references a net,
otherwise record the connection and set the back-reference.  There is no
frozen check in `Net.connect`. -/
def netConnect (st : St) (nid : Nat) (cn : String) (sel : PinSel) : Option Err × St :=
  match compAt? st cn with
  | none => (some (.UnknownComponent cn), st)
  | some c =>
    match resolvePinStrict c sel with
    | .error e => (some e, st)
    | .ok pos =>
      match (pinAt c pos).net with
      | some _ => (some .AlreadyConnected, st)
      | none => (none, updatePinNet (addConn st nid cn (pinAt c pos).index) cn pos (some nid))

/-! ### `BaseComponent.__init__` and the `Schematic` mutators -/

/-- Construct a component (`BaseComponent.__init__`): at least one pin,
pairwise-distinct pin names, pins indexed by position with no net. -/
def mkComponent (name : String) (pinNames : List String) : Except Err Component :=
  if pinNames = [] then .error .InvalidPins
  else if pinNames.Nodup then
    .ok ⟨name, pinNames.enum.map (fun p => ⟨p.1, p.2, none⟩)⟩
  else .error .InvalidPins

/-- `Schematic.freeze()`. -/
def freeze (st : St) : St := { st with frozen := true }

/-- `Schematic.add_net(Net(name, ground))` for a freshly constructed net:
the new object is allocated only when registration succeeds (a `Net` whose
registration failed is unreachable garbage in Python, so it is dropped). -/
def addNet (st : St) (name : String) (ground : Bool) : Option Err × St :=
  if st.frozen then (some .Frozen, st)
  else if (lookupKey st.nets name).isSome then (some (.DuplicateNet name), st)
  else (none, { st with netHeap := st.netHeap ++ [⟨name, ground, []⟩],
                        nets := st.nets ++ [(name, st.netHeap.length)] })

/-- `Schematic.add_net(net)` for a previously allocated `Net` object `nid`
(for example one held by the caller after a merge removed it). -/
def addNetObj (st : St) (nid : Nat) : Option Err × St :=
  if st.frozen then (some .Frozen, st)
  else if (lookupKey st.nets (netAt st nid).name).isSome then
    (some (.DuplicateNet (netAt st nid).name), st)
  else (none, { st with nets := st.nets ++ [((netAt st nid).name, nid)] })

/-- `Schematic.add_component(component)`. -/
def addComponent (st : St) (c : Component) : Option Err × St :=
  if st.frozen then (some .Frozen, st)
  else if (lookupKey st.components c.cname).isSome then
    (some (.DuplicateComponent c.cname), st)
  else (none, { st with components := st.components ++ [(c.cname, c)] })

/-- Constructing a component and registering it
(`add_component(SomeComponent(...))`). -/
def addComponentOp (st : St) (name : String) (pinNames : List String) : Option Err × St :=
  match mkComponent name pinNames with
  | .error e => (some e, st)
  | .ok c => addComponent st c

/-- `Schematic.net(name)`. -/
def netByName (st : St) (name : String) : Except Err Nat :=
  match lookupKey st.nets name with
  | some nid => .ok nid
  | none => .error (.UnknownNet name)

/-- `Schematic.component(name)`. -/
def compByName (st : St) (name : String) : Except Err Component :=
  match compAt? st name with
  | some c => .ok c
  | none => .error (.UnknownComponent name)

/-- `Schematic.connect(net, component, pin)`. -/
def schConnect (st : St) (netName compName : String) (sel : PinSel) : Option Err × St :=
  if st.frozen then (some .Frozen, st)
  else match netByName st netName with
  | .error e => (some e, st)
  | .ok nid =>
    match compByName st compName with
    | .error e => (some e, st)
    | .ok _ => netConnect st nid compName sel

/-- `Schematic.connect_create_net(net_name, component, pin)`: create the net
first when its name is unknown, then delegate to `connect`. -/
def connectCreateNet (st : St) (netName compName : String) (sel : PinSel) : Option Err × St :=
  if st.frozen then (some .Frozen, st)
  else
    let r := if (lookupKey st.nets netName).isSome then (none, st) else addNet st netName false
    match r with
    | (some e, st1) => (some e, st1)
    | (none, st1) => schConnect st1 netName compName sel

/-- The auto-generated net name for counter value `k`: `f"N${k}"`. -/
def autoNameStr (k : Nat) : String := "N$" ++ Nat.repr k

/-- `Schematic._new_auto_net_name()`: increment the counter, format it. -/
def newAutoNetName (st : St) : String × St :=
  (autoNameStr (st.anon_net_counter + 1), { st with anon_net_counter := st.anon_net_counter + 1 })

/-- A `comp: Union[str, BaseComponent]` argument of `connect_pins`. -/
inductive CompRef where
  | byName (s : String)
  | byInst (c : Component)
deriving DecidableEq, Repr

/-- `Schematic._resolve_component`: a name is looked up (`KeyError` when
unknown); an instance must be registered under its name, and the registered
object is returned. -/
def resolveComponent (st : St) (r : CompRef) : Except Err Component :=
  match r with
  | .byName s => compByName st s
  | .byInst c =>
    match compAt? st c.cname with
    | none => .error (.NotRegistered c.cname)
    | some c2 => .ok c2

/-- One pin transfer inside `Schematic._merge_nets`: clear the back-reference,
add the pair to the target's `_connections` bypassing `Net.connect`, set the
back-reference to the target. -/
def moveOne (tid : Nat) (st : St) (cn : String) (idx : Nat) : St :=
  updatePinNet (addConn (updatePinNet st cn idx none) tid cn idx) cn idx (some tid)

/-- `Schematic._merge_nets(net_target, net_source)`: move every source
connection into the target, then delete the source's registry entry (the
source heap object keeps its now-stale `_connections`, as in Python). -/
def mergeNets (st : St) (tid sid : Nat) : Option Err × St :=
  if st.frozen then (some .Frozen, st)
  else if tid = sid then (none, st)
  else
    let src := netAt st sid
    let st1 := src.connections.foldl
      (fun acc e => e.2.foldl (fun acc2 idx => moveOne tid acc2 e.1 idx) acc) st
    match delKey st1.nets src.name with
    | some reg => (none, { st1 with nets := reg })
    | none => (some (.UnknownNet src.name), st1)

/-- `Schematic.connect_pins(comp_a, pin_a, comp_b, pin_b, net_name=None,
allow_merge=False)`, the decision table over the two pins' current nets.
An empty-string `net_name` is falsy in Python, hence auto-named. -/
def connectPins (st : St) (ca : CompRef) (pa : PinSel) (cb : CompRef) (pb : PinSel)
    (netName : Option String) (allowMerge : Bool) : Except Err Nat × St :=
  if st.frozen then (.error .Frozen, st)
  else match resolveComponent st ca with
  | .error e => (.error e, st)
  | .ok a =>
  match resolveComponent st cb with
  | .error e => (.error e, st)
  | .ok b =>
  match resolvePinPy a pa with
  | .error e => (.error e, st)
  | .ok posA =>
  match resolvePinPy b pb with
  | .error e => (.error e, st)
  | .ok posB =>
  let pA := pinAt a posA
  let pB := pinAt b posB
  match pA.net, pB.net with
  | none, none =>
    let cs :=
      match netName with
      | some s => if s = "" then newAutoNetName st else (s, st)
      | none => newAutoNetName st
    let ns :=
      match lookupKey cs.2.nets cs.1 with
      | some nid => (nid, cs.2)
      | none =>
        -- `self.add_net(Net(chosen_name))`: the frozen and duplicate-name
        -- guards of `add_net` hold here, so registration always succeeds.
        (cs.2.netHeap.length,
         { cs.2 with netHeap := cs.2.netHeap ++ [(⟨cs.1, false, []⟩ : NetData)],
                     nets := cs.2.nets ++ [(cs.1, cs.2.netHeap.length)] })
    match netConnect ns.2 ns.1 a.cname (.idx pA.index) with
    | (some e, st3) => (.error e, st3)
    | (none, st3) =>
      match netConnect st3 ns.1 b.cname (.idx pB.index) with
      | (some e, st4) => (.error e, st4)
      | (none, st4) => (.ok ns.1, st4)
  | some na, none =>
    match netConnect st na b.cname (.idx pB.index) with
    | (some e, st3) => (.error e, st3)
    | (none, st3) => (.ok na, st3)
  | none, some nb =>
    match netConnect st nb a.cname (.idx pA.index) with
    | (some e, st3) => (.error e, st3)
    | (none, st3) => (.ok nb, st3)
  | some na, some nb =>
    if na = nb then (.ok na, st)
    else if allowMerge = false then (.error .UnmergedNets, st)
    else
      match mergeNets st na nb with
      | (some e, st3) => (.error e, st3)
      | (none, st3) => (.ok na, st3)

/-- `Schematic.ground()`. -/
def groundNet (st : St) : Except Err Nat :=
  match st.nets.filter (fun p => (netAt st p.2).is_ground) with
  | [] => .error .NoGround
  | [g] => .ok g.2
  | _ => .error .MultipleGrounds

/-- The `Schematic.nets` property (registry values in insertion order). -/
def netsView (st : St) : List NetData := st.nets.map (fun p => netAt st p.2)

/-- The `Schematic.components` property. -/
def componentsView (st : St) : List Component := st.components.map (·.2)

/-! ### Graph projections (`src/graph`)

The projection functions are generic over "net-like vertices"; a vertex is
its `name`, `is_ground` flag and `connections` snapshot.  Components occur
in connections by identity; inside one schematic a component's identity is
its registry-unique name, so hyperedge identity is modelled as the name.
Vertex identity is structural equality of `Vtx` values (two occurrences of
the same Python object are two equal values). -/

structure Vtx where
  name : String
  is_ground : Bool
  connections : List (String × List Nat)
deriving DecidableEq, Repr

/-- The net-like view of a registered net of a schematic. -/
def vtxOfNet (st : St) (nid : Nat) : Vtx :=
  ⟨(netAt st nid).name, (netAt st nid).is_ground, (netAt st nid).connections⟩

/-- One incidence triple `(net, component, pin_index)`. -/
abbrev Incidence := Vtx × String × Nat

/-- `star_expansion_from_vertices`: eager accumulation via `incidences.append`
inside the three nested `for` loops. -/
def starExpansionFromVertices (vs : List Vtx) : List Incidence :=
  vs.foldl
    (fun acc v =>
      v.connections.foldl
        (fun acc2 e => e.2.foldl (fun acc3 i => acc3 ++ [(v, e.1, i)]) acc2) acc)
    []

/-- `star_expansion_iter`: the generator variant; the value it denotes is the
sequence of yielded triples. -/
def starExpansionIter (vs : List Vtx) : List Incidence :=
  vs.flatMap (fun v => v.connections.flatMap (fun e => e.2.map (fun i => (v, e.1, i))))

/-- `itertools.combinations(l, 2)` in emission order. -/
def pairsOf : List α → List (α × α)
  | [] => []
  | x :: xs => xs.map (fun y => (x, y)) ++ pairsOf xs

/-- Union of two pin sets, as `set.update` (insertion-ordered). -/
def unionSet (s : List Nat) (t : List Nat) : List Nat := t.foldl insertSet s

/-- `comp_to_nets.setdefault(comp, {}).setdefault(net, set()).update(pin_set)`. -/
def addCompNet (m : List (String × List (Vtx × List Nat))) (cn : String) (v : Vtx)
    (ps : List Nat) : List (String × List (Vtx × List Nat)) :=
  match m with
  | [] => [(cn, [(v, unionSet [] ps)])]
  | (k, nm) :: rest =>
    if k = cn then
      (k, (match lookupVtx nm v with
           | some _ => setVtx nm v ps
           | none => nm ++ [(v, unionSet [] ps)])) :: rest
    else (k, nm) :: addCompNet rest cn v ps
where
  /-- Inner-dict lookup keyed by vertex identity. -/
  lookupVtx : List (Vtx × List Nat) → Vtx → Option (List Nat)
    | [], _ => none
    | (u, s) :: rest, v => if u = v then some s else lookupVtx rest v
  /-- Update the existing inner entry for `v` with the union. -/
  setVtx : List (Vtx × List Nat) → Vtx → List Nat → List (Vtx × List Nat)
    | [], _, _ => []
    | (u, s) :: rest, v, ps => if u = v then (u, unionSet s ps) :: rest else (u, s) :: setVtx rest v ps

/-- The `comp_to_nets` accumulation loop of `build_net_multigraph_from_vertices`. -/
def compToNets (vs : List Vtx) : List (String × List (Vtx × List Nat)) :=
  vs.foldl (fun m v => v.connections.foldl (fun m2 e => addCompNet m2 e.1 v e.2) m) []

/-- One edge of the net-projected multigraph, with its attribute payload. -/
structure NetEdge where
  src : String
  dst : String
  comp : String
  netsAttr : String × String
  pinMapSrc : List Nat
  pinMapDst : List Nat
deriving DecidableEq, Repr

/-- The per-component edge emission of `build_net_multigraph_from_vertices`:
one edge per unordered pair of the nets in `net_map`, carrying the complete
per-net pin sets as the pin map. -/
def edgesOfComp (cn : String) (netMap : List (Vtx × List Nat)) : List NetEdge :=
  (pairsOf netMap).map (fun ab =>
    ⟨ab.1.1.name, ab.2.1.name, cn, (ab.1.1.name, ab.2.1.name), ab.1.2, ab.2.2⟩)

/-- The edge list of `build_net_multigraph_from_vertices` (node insertion is
not modelled; the claims are about edges). -/
def buildNetMultigraphEdges (vs : List Vtx) : List NetEdge :=
  (compToNets vs).foldl
    (fun es e => es ++ if e.2.length < 2 then [] else edgesOfComp e.1 e.2) []

/-- Specification-side recursion: the distinct nets touched by component `cn`,
in first-discovery order while scanning `vs`. -/
def touchedNets (vs : List Vtx) (cn : String) : List Vtx :=
  vs.foldl
    (fun acc v =>
      if v.connections.any (fun e => e.1 = cn) ∧ v ∉ acc then acc ++ [v] else acc) []

/-- Specification-side recursion: the complete set of pin indices of component
`cn` attached to net `v`, merged across every occurrence in `vs`. -/
def fullPins (vs : List Vtx) (cn : String) (v : Vtx) : List Nat :=
  vs.foldl
    (fun acc u =>
      if u = v then u.connections.foldl (fun a e => if e.1 = cn then unionSet a e.2 else a) acc
      else acc) []

/-! ### Invariants and reachability -/

/-- Net id `nid` is currently registered. -/
def regNet (st : St) (nid : Nat) : Prop := ∃ p ∈ st.nets, p.2 = nid

/-- Registry coherence: every registry entry points into the heap, is keyed by
the object's own name, and names are unique. -/
def RegCoherent (st : St) : Prop :=
  (∀ p ∈ st.nets, p.2 < st.netHeap.length ∧ (netAt st p.2).name = p.1) ∧
  (st.nets.map Prod.fst).Nodup

/-- Component registry coherence: keyed by own name, unique names, pins are
nonempty with positional indices and distinct names. -/
def CompsWF (st : St) : Prop :=
  (∀ q ∈ st.components, q.2.cname = q.1 ∧ q.2.pins ≠ [] ∧
    (∀ i ∈ List.range q.2.pins.length, (pinAt q.2 i).index = i) ∧
    (q.2.pins.map Pin.name).Nodup) ∧
  (st.components.map Prod.fst).Nodup

/-- One connections entry of a registered net is backed by a registered
component whose listed pins point back at this net. -/
def ConnOk (st : St) (nid : Nat) (e : String × List Nat) : Prop :=
  (compAt? st e.1).isSome ∧
  ∀ idx ∈ e.2, idx < ((compAt? st e.1).getD default).pins.length ∧
    (pinAt ((compAt? st e.1).getD default) idx).net = some nid

/-- Forward lockstep over all registered nets. -/
def NetsForward (st : St) : Prop :=
  ∀ p ∈ st.nets, ∀ e ∈ (netAt st p.2).connections, ConnOk st p.2 e

/-- Connections maps of registered nets are genuine dictionaries of sets. -/
def ConnSets (st : St) : Prop :=
  ∀ p ∈ st.nets, ((netAt st p.2).connections.map Prod.fst).Nodup ∧
    ∀ e ∈ (netAt st p.2).connections, e.2.Nodup

/-- Backward lockstep for one pin of the component named `cn`. -/
def pinBack (st : St) (cn : String) (p : Pin) : Prop :=
  ∀ nid ∈ p.net.toList,
    (∃ q ∈ st.nets, q.2 = nid) ∧
    p.index ∈ (lookupKey (netAt st nid).connections cn).getD []

/-- Backward lockstep over all registered components' pins. -/
def PinsBackward (st : St) : Prop :=
  ∀ q ∈ st.components, ∀ i ∈ List.range q.2.pins.length, pinBack st q.1 (pinAt q.2 i)

/-- The full schematic invariant. -/
def Inv (st : St) : Prop :=
  RegCoherent st ∧ CompsWF st ∧ NetsForward st ∧ ConnSets st ∧ PinsBackward st

/-- Exclusivity exactly as claimed: at most one registered net references a
given `(component, pin_index)` pair. -/
def ClaimExclusivity (st : St) : Prop :=
  ∀ p ∈ st.nets, ∀ q ∈ st.nets,
    ∀ e ∈ (netAt st p.2).connections, ∀ f ∈ (netAt st q.2).connections,
      e.1 = f.1 → ∀ i ∈ e.2, i ∈ f.2 → p.2 = q.2

/-- Back-reference soundness exactly as claimed: each pin is unconnected or
its net's connections entry for its component contains its index. -/
def ClaimBackRef (st : St) : Prop :=
  ∀ q ∈ st.components, ∀ i ∈ List.range q.2.pins.length,
    (pinAt q.2 i).net = none ∨
    ∀ nid ∈ (pinAt q.2 i).net.toList,
      (pinAt q.2 i).index ∈ (lookupKey (netAt st nid).connections q.1).getD []

/-- Dual direction exactly as claimed: every pair in a registered net's
connections has its pin's back-reference set to that net. -/
def ClaimDual (st : St) : Prop :=
  ∀ p ∈ st.nets, ∀ e ∈ (netAt st p.2).connections,
    (compAt? st e.1).isSome ∧
    ∀ idx ∈ e.2, (pinAt ((compAt? st e.1).getD default) idx).net = some p.2

/-- The three-part invariant of claim C2. -/
def ClaimInv (st : St) : Prop := ClaimExclusivity st ∧ ClaimBackRef st ∧ ClaimDual st

/-- States reachable by the mutating operations, with `add_net` allowed to
register any previously allocated `Net` object the caller still holds
(`addNetObj`), as Python permits.  Error outcomes also yield reachable
states, since an exception leaves the schematic alive. -/
inductive Reach : St → Prop where
  | init : Reach St.init
  | addNet (nm : String) (g : Bool) {s : St} : Reach s → Reach (addNet s nm g).2
  | addNetObj (nid : Nat) {s : St} : Reach s → Reach (addNetObj s nid).2
  | addComponent (nm : String) (pns : List String) {s : St} :
      Reach s → Reach (addComponentOp s nm pns).2
  | connect (n c : String) (sel : PinSel) {s : St} : Reach s → Reach (schConnect s n c sel).2
  | connectCreate (n c : String) (sel : PinSel) {s : St} :
      Reach s → Reach (connectCreateNet s n c sel).2
  | connectPins (ca : CompRef) (pa : PinSel) (cb : CompRef) (pb : PinSel)
      (nn : Option String) (am : Bool) {s : St} :
      Reach s → Reach (connectPins s ca pa cb pb nn am).2
  | merge (tid sid : Nat) {s : St} :
      Reach s → regNet s tid → regNet s sid → Reach (mergeNets s tid sid).2
  | freeze {s : St} : Reach s → Reach (freeze s)

/-- States reachable when every net handed to `add_net` is freshly
constructed (the `addNetObj` step is dropped). -/
inductive ReachFresh : St → Prop where
  | init : ReachFresh St.init
  | addNet (nm : String) (g : Bool) {s : St} : ReachFresh s → ReachFresh (addNet s nm g).2
  | addComponent (nm : String) (pns : List String) {s : St} :
      ReachFresh s → ReachFresh (addComponentOp s nm pns).2
  | connect (n c : String) (sel : PinSel) {s : St} :
      ReachFresh s → ReachFresh (schConnect s n c sel).2
  | connectCreate (n c : String) (sel : PinSel) {s : St} :
      ReachFresh s → ReachFresh (connectCreateNet s n c sel).2
  | connectPins (ca : CompRef) (pa : PinSel) (cb : CompRef) (pb : PinSel)
      (nn : Option String) (am : Bool) {s : St} :
      ReachFresh s → ReachFresh (connectPins s ca pa cb pb nn am).2
  | merge (tid sid : Nat) {s : St} :
      ReachFresh s → regNet s tid → regNet s sid → ReachFresh (mergeNets s tid sid).2
  | freeze {s : St} : ReachFresh s → ReachFresh (freeze s)

instance (st : St) (nid : Nat) : Decidable (regNet st nid) := by
  unfold regNet; exact inferInstance

instance (st : St) : Decidable (RegCoherent st) := by
  unfold RegCoherent; exact inferInstance

instance (st : St) : Decidable (CompsWF st) := by
  unfold CompsWF; exact inferInstance

instance (st : St) (nid : Nat) (e : String × List Nat) : Decidable (ConnOk st nid e) := by
  unfold ConnOk; exact inferInstance

instance (st : St) : Decidable (NetsForward st) := by
  unfold NetsForward; exact inferInstance

instance (st : St) : Decidable (ConnSets st) := by
  unfold ConnSets; exact inferInstance

instance (st : St) (cn : String) (p : Pin) : Decidable (pinBack st cn p) := by
  unfold pinBack; exact inferInstance

instance (st : St) : Decidable (PinsBackward st) := by
  unfold PinsBackward; exact inferInstance

instance (st : St) : Decidable (Inv st) := by
  unfold Inv; exact inferInstance

instance (st : St) : Decidable (ClaimExclusivity st) := by
  unfold ClaimExclusivity; exact inferInstance

instance (st : St) : Decidable (ClaimBackRef st) := by
  unfold ClaimBackRef; exact inferInstance

instance (st : St) : Decidable (ClaimDual st) := by
  unfold ClaimDual; exact inferInstance

instance (st : St) : Decidable (ClaimInv st) := by
  unfold ClaimInv; exact inferInstance

/-! ### Decimal-representation helpers (injectivity of `Nat.repr`) -/

/-- Structural recursion computing the character list of `Nat.toDigits 10`. -/
def decChars (n : Nat) : List Char :=
  if n < 10 then [Nat.digitChar n]
  else decChars (n / 10) ++ [Nat.digitChar (n % 10)]
decreasing_by
  exact Nat.div_lt_self (by omega) (by omega)

/-- Left inverse of `decChars` on decimal digit strings. -/
def decVal (l : List Char) : Nat :=
  l.foldl (fun a c => a * 10 + (c.toNat - 48)) 0

/-- Total degree of a connections map. -/
def degreeC (conns : List (String × List Nat)) : Nat :=
  (conns.map (fun e => e.2.length)).sum

/-- The flat `(component, pin_index)` traversal order of a connections map,
as `_merge_nets` walks it. -/
def movePairs (conns : List (String × List Nat)) : List (String × Nat) :=
  conns.flatMap (fun e => e.2.map (fun i => (e.1, i)))

/-- The pin-transfer loop of `_merge_nets` over a flat pair list. -/
def foldMove (tid : Nat) (ps : List (String × Nat)) (st : St) : St :=
  ps.foldl (fun a pr => moveOne tid a pr.1 pr.2) st

/-- The effect of the transfer loop on the target's connections map. -/
def foldConns (ps : List (String × Nat)) (cs : List (String × List Nat)) :
    List (String × List Nat) :=
  ps.foldl (fun a pr => setdefaultAdd a pr.1 pr.2) cs

/-- Pin accumulation of one vertex's entries for component `cn`. -/
def pinsOfIn (es : List (String × List Nat)) (cn : String) (s0 : List Nat) : List Nat :=
  es.foldl (fun a e => if e.1 = cn then unionSet a e.2 else a) s0

/-- Replace the first inner entry for `v` by the absolute value `val`. -/
def setVtxAbs : List (Vtx × List Nat) → Vtx → List Nat → List (Vtx × List Nat)
  | [], _, _ => []
  | (u, s) :: rest, v, val =>
    if u = v then (u, val) :: rest else (u, s) :: setVtxAbs rest v val

/-! ### Concrete example schematics (used by witnesses and counterexamples) -/

/-- Two two-pin components registered in an empty schematic. -/
def exA : St := (addComponentOp St.init "c1" ["p0", "p1"]).2

def exB : St := (addComponentOp exA "c2" ["q0", "q1"]).2

/-- Net `A` joining the first pins. -/
def exC : St := (connectPins exB (.byName "c1") (.idx 0) (.byName "c2") (.idx 0) (some "A") false).2

/-- Net `B` joining the second pins. -/
def exD : St := (connectPins exC (.byName "c1") (.idx 1) (.byName "c2") (.idx 1) (some "B") false).2

/-- `B` merged into `A` through `connect_pins(..., allow_merge=True)`. -/
def exE : St := (connectPins exD (.byName "c1") (.idx 0) (.byName "c1") (.idx 1) none true).2

/-- The stale `B` object (heap id 1) re-registered through `add_net`. -/
def exBad : St := (addNetObj exE 1).2

/-- A net `N` and an unconnected two-pin component `c`. -/
def exG : St := (addComponentOp (addNet St.init "N" false).2 "c" ["p", "q"]).2

/-- Pin `p` of `c` connected to `N`. -/
def exH : St := (schConnect exG "N" "c" (.idx 0)).2

/-- A unique ground net `G` and a plain net `T`. -/
def exK : St := (addNet (addNet St.init "G" true).2 "T" false).2

/-- `exB` with a manually registered net squatting the first auto name. -/
def exSq : St := (addNet exB "N$1" false).2

/-- Equality of `connect_pins` results is decidable. -/
instance : DecidableEq (Except Err Nat) := fun a b =>
  match a, b with
  | .error e1, .error e2 =>
    if h : e1 = e2 then isTrue (by rw [h]) else isFalse (by intro hc; cases hc; exact h rfl)
  | .ok n1, .ok n2 =>
    if h : n1 = n2 then isTrue (by rw [h]) else isFalse (by intro hc; cases hc; exact h rfl)
  | .error _, .ok _ => isFalse (by intro hc; cases hc)
  | .ok _, .error _ => isFalse (by intro hc; cases hc)

/-! ## Lemmas about the ordered-dictionary helpers -/

theorem degree_eq (nd : NetData) : degree nd = degreeC nd.connections := rfl

theorem lookupKey_cons (k2 : String) (v : α) (l : List (String × α)) (k : String) :
    lookupKey ((k2, v) :: l) k = if k2 = k then some v else lookupKey l k := rfl

theorem lookupKey_append_left {l1 : List (String × α)} (l2 : List (String × α))
    (h : lookupKey l1 k = some v) : lookupKey (l1 ++ l2) k = some v := by
  induction l1 with
  | nil => simp [lookupKey] at h
  | cons p rest ih =>
    obtain ⟨k2, v2⟩ := p
    rw [List.cons_append, lookupKey_cons]
    rw [lookupKey_cons] at h
    split at h <;> simp_all [ih]

theorem lookupKey_append_right {l1 : List (String × α)} (l2 : List (String × α))
    (h : lookupKey l1 k = none) : lookupKey (l1 ++ l2) k = lookupKey l2 k := by
  induction l1 with
  | nil => rfl
  | cons p rest ih =>
    obtain ⟨k2, v2⟩ := p
    rw [List.cons_append, lookupKey_cons]
    rw [lookupKey_cons] at h
    split at h <;> simp_all [ih]

theorem lookupKey_eq_none_iff {l : List (String × α)} {k : String} :
    lookupKey l k = none ↔ k ∉ l.map Prod.fst := by
  induction l with
  | nil => simp [lookupKey]
  | cons p rest ih =>
    obtain ⟨k2, v2⟩ := p
    rw [lookupKey_cons]
    by_cases h : k2 = k
    · subst h; simp
    · simp [h, ih, Ne.symm h]

theorem lookupKey_isSome_iff {l : List (String × α)} {k : String} :
    (lookupKey l k).isSome ↔ k ∈ l.map Prod.fst := by
  rcases hl : lookupKey l k with _ | v
  · simp only [Option.isSome_none, Bool.false_eq_true, false_iff]
    exact lookupKey_eq_none_iff.mp hl
  · simp only [Option.isSome_some, true_iff]
    by_contra hmem
    rw [← lookupKey_eq_none_iff] at hmem
    rw [hl] at hmem
    exact Option.noConfusion hmem

theorem lookupKey_mem {l : List (String × α)} {k : String} {v : α}
    (h : lookupKey l k = some v) : (k, v) ∈ l := by
  induction l with
  | nil => simp [lookupKey] at h
  | cons p rest ih =>
    obtain ⟨k2, v2⟩ := p
    rw [lookupKey_cons] at h
    split at h
    · simp_all
    · simp [ih h]

theorem mem_lookupKey_of_nodup {l : List (String × α)}
    (hn : (l.map Prod.fst).Nodup) (h : (k, v) ∈ l) : lookupKey l k = some v := by
  induction l with
  | nil => simp at h
  | cons p rest ih =>
    obtain ⟨k2, v2⟩ := p
    simp only [List.map_cons, List.nodup_cons] at hn
    rw [lookupKey_cons]
    rcases List.mem_cons.mp h with h1 | h1
    · obtain ⟨rfl, rfl⟩ := Prod.mk.injEq .. ▸ Prod.ext_iff.mp h1
      simp
    · have hk : k2 ≠ k := by
        rintro rfl
        exact hn.1 (List.mem_map.mpr ⟨(k2, v), h1, rfl⟩)
      simp [hk, ih hn.2 h1]

theorem mem_iff_lookupKey_of_nodup {l : List (String × α)}
    (hn : (l.map Prod.fst).Nodup) : (k, v) ∈ l ↔ lookupKey l k = some v :=
  ⟨mem_lookupKey_of_nodup hn, lookupKey_mem⟩

theorem lookupKey_filter_ne (l : List (String × α)) (k k2 : String) :
    lookupKey (l.filter (fun p => p.1 ≠ k)) k2 =
      if k2 = k then none else lookupKey l k2 := by
  simp only [ne_eq, decide_not]
  induction l with
  | nil => simp [lookupKey]
  | cons p rest ih =>
    obtain ⟨k3, v3⟩ := p
    by_cases h3 : k3 = k
    · subst h3
      rw [List.filter_cons_of_neg (by simp), ih]
      by_cases h2 : k2 = k3
      · rw [if_pos h2, if_pos h2]
      · rw [if_neg h2, if_neg h2, lookupKey_cons, if_neg (fun hc => h2 hc.symm)]
    · rw [List.filter_cons_of_pos (by simp [h3]), lookupKey_cons]
      by_cases h2 : k3 = k2
      · subst h2
        rw [if_pos rfl, if_neg h3, lookupKey_cons, if_pos rfl]
      · rw [if_neg h2, ih, lookupKey_cons, if_neg h2]

theorem lookupKey_map_update (l : List (String × α)) (cn : String) (f : α → α) (k : String) :
    lookupKey (l.map (fun p => if p.1 = cn then (p.1, f p.2) else p)) k =
      if k = cn then (lookupKey l k).map f else lookupKey l k := by
  induction l with
  | nil => simp [lookupKey]
  | cons p rest ih =>
    obtain ⟨k2, v2⟩ := p
    simp only [List.map_cons]
    by_cases h2 : k2 = cn
    · subst h2
      by_cases hk : k2 = k
      · subst hk; simp [lookupKey_cons]
      · simp [lookupKey_cons, hk, ih]
    · by_cases hk : k2 = k
      · subst hk
        rw [if_neg h2, lookupKey_cons, if_pos rfl, lookupKey_cons, if_pos rfl,
          if_neg (fun hc => h2 hc)]
      · rw [if_neg h2, lookupKey_cons, if_neg hk, lookupKey_cons, if_neg hk, ih]

theorem keys_map_update (l : List (String × α)) (cn : String) (f : α → α) :
    (l.map (fun p => if p.1 = cn then (p.1, f p.2) else p)).map Prod.fst = l.map Prod.fst := by
  induction l with
  | nil => rfl
  | cons p rest ih =>
    obtain ⟨k2, v2⟩ := p
    by_cases h2 : k2 = cn <;> simp [h2, ih]

theorem length_modifyAt (l : List α) (i : Nat) (f : α → α) :
    (modifyAt l i f).length = l.length := by
  induction l generalizing i with
  | nil => rfl
  | cons x xs ih =>
    cases i with
    | zero => rfl
    | succ n => simp [modifyAt, ih]

theorem modifyAt_eq_of_le {l : List α} {i : Nat} (f : α → α) (h : l.length ≤ i) :
    modifyAt l i f = l := by
  induction l generalizing i with
  | nil => rfl
  | cons x xs ih =>
    cases i with
    | zero => simp at h
    | succ n => simp only [modifyAt]; rw [ih (by simpa using h)]

theorem getD_modifyAt_self {l : List α} {i : Nat} (f : α → α) (d : α) (h : i < l.length) :
    (modifyAt l i f).getD i d = f (l.getD i d) := by
  induction l generalizing i with
  | nil => simp at h
  | cons x xs ih =>
    cases i with
    | zero => rfl
    | succ n => simpa [modifyAt] using ih (by simpa using h)

theorem getD_modifyAt_ne {l : List α} {i j : Nat} (f : α → α) (d : α) (h : j ≠ i) :
    (modifyAt l i f).getD j d = l.getD j d := by
  induction l generalizing i j with
  | nil => rfl
  | cons x xs ih =>
    cases i with
    | zero =>
      cases j with
      | zero => exact absurd rfl h
      | succ m => rfl
    | succ n =>
      cases j with
      | zero => rfl
      | succ m => simpa [modifyAt] using ih (fun hc => h (by omega))

theorem map_modifyAt_eq {l : List α} {i : Nat} {f : α → α} {g : α → β}
    (h : ∀ x, g (f x) = g x) : (modifyAt l i f).map g = l.map g := by
  induction l generalizing i with
  | nil => rfl
  | cons x xs ih =>
    cases i with
    | zero => simp [modifyAt, h]
    | succ n => simp [modifyAt, ih]

theorem mem_insertSet {s : List Nat} {i j : Nat} :
    j ∈ insertSet s i ↔ j = i ∨ j ∈ s := by
  unfold insertSet
  split
  · constructor
    · exact fun h => Or.inr h
    · rintro (rfl | h) <;> simp_all
  · simp [or_comm]

theorem insertSet_nodup {s : List Nat} (i : Nat) (h : s.Nodup) : (insertSet s i).Nodup := by
  unfold insertSet
  split
  · exact h
  · simpa [List.nodup_append, h] using (by assumption : ¬ i ∈ s)

theorem length_insertSet_of_not_mem {s : List Nat} {i : Nat} (h : i ∉ s) :
    (insertSet s i).length = s.length + 1 := by
  simp [insertSet, h]

theorem length_insertSet_of_mem {s : List Nat} {i : Nat} (h : i ∈ s) :
    (insertSet s i).length = s.length := by
  simp [insertSet, h]

theorem lookupKey_setdefaultAdd_self (conns : List (String × List Nat)) (cn : String) (idx : Nat) :
    lookupKey (setdefaultAdd conns cn idx) cn =
      some (insertSet ((lookupKey conns cn).getD []) idx) := by
  induction conns with
  | nil => simp [setdefaultAdd, lookupKey_cons, lookupKey, insertSet]
  | cons p rest ih =>
    obtain ⟨k, s⟩ := p
    by_cases hk : k = cn
    · subst hk; simp [setdefaultAdd, lookupKey_cons]
    · simp [setdefaultAdd, hk, lookupKey_cons, ih]

theorem lookupKey_setdefaultAdd_ne (conns : List (String × List Nat)) {cn k : String}
    (idx : Nat) (h : k ≠ cn) :
    lookupKey (setdefaultAdd conns cn idx) k = lookupKey conns k := by
  induction conns with
  | nil => simp [setdefaultAdd, lookupKey_cons, lookupKey, Ne.symm h]
  | cons p rest ih =>
    obtain ⟨k2, s⟩ := p
    by_cases hk : k2 = cn
    · subst hk
      simp [setdefaultAdd, lookupKey_cons, Ne.symm h]
    · simp [setdefaultAdd, hk, lookupKey_cons, ih]

theorem keys_setdefaultAdd (conns : List (String × List Nat)) (cn : String) (idx : Nat) :
    (setdefaultAdd conns cn idx).map Prod.fst =
      if cn ∈ conns.map Prod.fst then conns.map Prod.fst
      else conns.map Prod.fst ++ [cn] := by
  induction conns with
  | nil => simp [setdefaultAdd]
  | cons p rest ih =>
    obtain ⟨k, s⟩ := p
    by_cases hk : k = cn
    · subst hk; simp [setdefaultAdd]
    · simp only [setdefaultAdd, if_neg hk, List.map_cons, ih]
      by_cases hmem : cn ∈ rest.map Prod.fst <;>
        simp [hmem, hk, Ne.symm hk]

theorem keys_setdefaultAdd_nodup {conns : List (String × List Nat)} (cn : String) (idx : Nat)
    (h : (conns.map Prod.fst).Nodup) : ((setdefaultAdd conns cn idx).map Prod.fst).Nodup := by
  rw [keys_setdefaultAdd]
  split
  · exact h
  · simpa [List.nodup_append, h] using (by assumption : ¬ cn ∈ conns.map Prod.fst)

theorem sets_setdefaultAdd_nodup {conns : List (String × List Nat)} {cn : String} {idx : Nat}
    (h : ∀ e ∈ conns, e.2.Nodup) : ∀ e ∈ setdefaultAdd conns cn idx, e.2.Nodup := by
  induction conns with
  | nil =>
    intro e he
    simp [setdefaultAdd] at he
    simp [he]
  | cons p rest ih =>
    obtain ⟨k, s⟩ := p
    intro e he
    by_cases hk : k = cn
    · subst hk
      simp only [setdefaultAdd, if_pos rfl] at he
      rcases List.mem_cons.mp he with h1 | h1
      · subst h1; exact insertSet_nodup idx (h (k, s) (by simp))
      · exact h e (by simp [h1])
    · simp only [setdefaultAdd, if_neg hk] at he
      rcases List.mem_cons.mp he with h1 | h1
      · subst h1; exact h (k, s) (by simp)
      · exact ih (fun e2 he2 => h e2 (by simp [he2])) e h1

theorem degreeC_setdefaultAdd_not_mem {conns : List (String × List Nat)} {cn : String} {idx : Nat}
    (h : idx ∉ (lookupKey conns cn).getD []) :
    degreeC (setdefaultAdd conns cn idx) = degreeC conns + 1 := by
  induction conns with
  | nil => simp [setdefaultAdd, degreeC]
  | cons p rest ih =>
    obtain ⟨k, s⟩ := p
    by_cases hk : k = cn
    · subst hk
      rw [lookupKey_cons, if_pos rfl] at h
      rw [show setdefaultAdd ((k, s) :: rest) k idx = (k, insertSet s idx) :: rest from
        by simp [setdefaultAdd]]
      simp only [degreeC, List.map_cons, List.sum_cons]
      rw [length_insertSet_of_not_mem (by simpa using h)]
      omega
    · rw [lookupKey_cons, if_neg hk] at h
      rw [show setdefaultAdd ((k, s) :: rest) cn idx = (k, s) :: setdefaultAdd rest cn idx from
        by simp [setdefaultAdd, hk]]
      simp only [degreeC, List.map_cons, List.sum_cons]
      have := ih h
      simp only [degreeC] at this
      omega

/-! ## State projection lemmas -/

theorem netAt_updatePinNet (st : St) (cn : String) (pos : Nat) (v : Option Nat) (nid : Nat) :
    netAt (updatePinNet st cn pos v) nid = netAt st nid := rfl

theorem nets_updatePinNet (st : St) (cn : String) (pos : Nat) (v : Option Nat) :
    (updatePinNet st cn pos v).nets = st.nets := rfl

theorem frozen_updatePinNet (st : St) (cn : String) (pos : Nat) (v : Option Nat) :
    (updatePinNet st cn pos v).frozen = st.frozen := rfl

theorem netHeap_updatePinNet (st : St) (cn : String) (pos : Nat) (v : Option Nat) :
    (updatePinNet st cn pos v).netHeap = st.netHeap := rfl

theorem compAt?_updatePinNet (st : St) (cn : String) (pos : Nat) (v : Option Nat) (k : String) :
    compAt? (updatePinNet st cn pos v) k =
      if k = cn then
        (compAt? st k).map
          (fun c => { c with pins := modifyAt c.pins pos (fun p => { p with net := v }) })
      else compAt? st k := by
  unfold compAt? updatePinNet updateComp
  dsimp only
  exact lookupKey_map_update st.components cn
    (fun c => { c with pins := modifyAt c.pins pos (fun p => { p with net := v }) }) k

theorem keys_updatePinNet (st : St) (cn : String) (pos : Nat) (v : Option Nat) :
    (updatePinNet st cn pos v).components.map Prod.fst = st.components.map Prod.fst := by
  unfold updatePinNet updateComp
  dsimp only
  exact keys_map_update st.components cn
    (fun c => { c with pins := modifyAt c.pins pos (fun p => { p with net := v }) })

theorem compAt?_addConn (st : St) (nid : Nat) (cn : String) (idx : Nat) (k : String) :
    compAt? (addConn st nid cn idx) k = compAt? st k := rfl

theorem nets_addConn (st : St) (nid : Nat) (cn : String) (idx : Nat) :
    (addConn st nid cn idx).nets = st.nets := rfl

theorem frozen_addConn (st : St) (nid : Nat) (cn : String) (idx : Nat) :
    (addConn st nid cn idx).frozen = st.frozen := rfl

theorem components_addConn (st : St) (nid : Nat) (cn : String) (idx : Nat) :
    (addConn st nid cn idx).components = st.components := rfl

theorem netHeap_length_addConn (st : St) (nid : Nat) (cn : String) (idx : Nat) :
    (addConn st nid cn idx).netHeap.length = st.netHeap.length :=
  length_modifyAt ..

theorem netAt_addConn_self (st : St) (nid : Nat) (cn : String) (idx : Nat)
    (h : nid < st.netHeap.length) :
    netAt (addConn st nid cn idx) nid =
      { netAt st nid with connections := setdefaultAdd (netAt st nid).connections cn idx } := by
  unfold netAt addConn modifyNetData
  exact getD_modifyAt_self _ _ h

theorem netAt_addConn_ne (st : St) (nid : Nat) (cn : String) (idx : Nat) {m : Nat}
    (h : m ≠ nid) : netAt (addConn st nid cn idx) m = netAt st m := by
  unfold netAt addConn modifyNetData
  exact getD_modifyAt_ne _ _ h

theorem name_netAt_addConn (st : St) (nid : Nat) (cn : String) (idx : Nat) (m : Nat) :
    (netAt (addConn st nid cn idx) m).name = (netAt st m).name := by
  by_cases hm : m = nid
  · subst hm
    by_cases hb : m < st.netHeap.length
    · rw [netAt_addConn_self st m cn idx hb]
    · unfold netAt addConn modifyNetData
      rw [modifyAt_eq_of_le _ (by omega)]
  · rw [netAt_addConn_ne st nid cn idx hm]

theorem is_ground_netAt_addConn (st : St) (nid : Nat) (cn : String) (idx : Nat) (m : Nat) :
    (netAt (addConn st nid cn idx) m).is_ground = (netAt st m).is_ground := by
  by_cases hm : m = nid
  · subst hm
    by_cases hb : m < st.netHeap.length
    · rw [netAt_addConn_self st m cn idx hb]
    · unfold netAt addConn modifyNetData
      rw [modifyAt_eq_of_le _ (by omega)]
  · rw [netAt_addConn_ne st nid cn idx hm]

theorem pinAt_modify_self {c : Component} {pos : Nat} (f : Pin → Pin)
    (h : pos < c.pins.length) :
    pinAt { c with pins := modifyAt c.pins pos f } pos = f (pinAt c pos) := by
  unfold pinAt
  exact getD_modifyAt_self f _ h

theorem pinAt_modify_ne {c : Component} {pos j : Nat} (f : Pin → Pin) (h : j ≠ pos) :
    pinAt { c with pins := modifyAt c.pins pos f } j = pinAt c j := by
  unfold pinAt
  exact getD_modifyAt_ne f _ h

theorem resolvePinStrict_lt {c : Component} {sel : PinSel} {pos : Nat}
    (h : resolvePinStrict c sel = .ok pos) : pos < c.pins.length := by
  unfold resolvePinStrict at h
  split at h
  · split at h
    · cases h
      rename_i hf
      exact (List.findIdx?_eq_some_iff_findIdx_eq.mp hf).1
    · exact Except.noConfusion h
  · split at h
    · cases h
      rename_i hcond
      omega
    · exact Except.noConfusion h

theorem netConnect_err {st : St} {nid : Nat} {cn : String} {sel : PinSel} {e : Err} {st2 : St}
    (h : netConnect st nid cn sel = (some e, st2)) : st2 = st := by
  unfold netConnect at h
  split at h
  · cases h; rfl
  · split at h
    · cases h; rfl
    · split at h
      · cases h; rfl
      · simp at h

theorem netConnect_ok {st : St} {nid : Nat} {cn : String} {sel : PinSel} {st2 : St}
    (h : netConnect st nid cn sel = (none, st2)) :
    ∃ c pos, compAt? st cn = some c ∧ resolvePinStrict c sel = .ok pos ∧
      (pinAt c pos).net = none ∧
      st2 = updatePinNet (addConn st nid cn (pinAt c pos).index) cn pos (some nid) := by
  unfold netConnect at h
  split at h
  · simp at h
  · split at h
    · simp at h
    · split at h
      · simp at h
      · cases h
        exact ⟨_, _, by assumption, by assumption, by assumption, rfl⟩

@[simp] theorem withPins_pins (c : Component) (l : List Pin) :
    ({ c with pins := l } : Component).pins = l := rfl

@[simp] theorem withPins_cname (c : Component) (l : List Pin) :
    ({ c with pins := l } : Component).cname = c.cname := rfl

@[simp] theorem withConns_name (nd : NetData) (l : List (String × List Nat)) :
    ({ nd with connections := l } : NetData).name = nd.name := rfl

@[simp] theorem withConns_is_ground (nd : NetData) (l : List (String × List Nat)) :
    ({ nd with connections := l } : NetData).is_ground = nd.is_ground := rfl

@[simp] theorem withConns_connections (nd : NetData) (l : List (String × List Nat)) :
    ({ nd with connections := l } : NetData).connections = l := rfl

@[simp] theorem withNet_index (p : Pin) (v : Option Nat) :
    ({ p with net := v } : Pin).index = p.index := rfl

@[simp] theorem withNet_name (p : Pin) (v : Option Nat) :
    ({ p with net := v } : Pin).name = p.name := rfl

@[simp] theorem withNet_net (p : Pin) (v : Option Nat) :
    ({ p with net := v } : Pin).net = v := rfl

theorem mem_components_updatePinNet {st : St} {cn : String} {pos : Nat} {v : Option Nat}
    {q : String × Component} :
    q ∈ (updatePinNet st cn pos v).components ↔
      ∃ q0 ∈ st.components,
        q = (q0.1, if q0.1 = cn then
          { q0.2 with pins := modifyAt q0.2.pins pos (fun p => { p with net := v }) }
          else q0.2) := by
  unfold updatePinNet updateComp
  dsimp only
  rw [List.mem_map]
  constructor
  · rintro ⟨q0, hq0, rfl⟩
    refine ⟨q0, hq0, ?_⟩
    by_cases h : q0.1 = cn <;> simp [h]
  · rintro ⟨q0, hq0, rfl⟩
    refine ⟨q0, hq0, ?_⟩
    by_cases h : q0.1 = cn <;> simp [h]

theorem ConnOk_of {st : St} {nid : Nat} {e : String × List Nat} {c : Component}
    (hc : compAt? st e.1 = some c)
    (hb : ∀ idx ∈ e.2, idx < c.pins.length ∧ (pinAt c idx).net = some nid) :
    ConnOk st nid e := by
  unfold ConnOk
  rw [hc]
  exact ⟨rfl, by simpa using hb⟩

theorem ConnOk_elim {st : St} {nid : Nat} {e : String × List Nat} (h : ConnOk st nid e) :
    ∃ c, compAt? st e.1 = some c ∧
      ∀ idx ∈ e.2, idx < c.pins.length ∧ (pinAt c idx).net = some nid := by
  obtain ⟨h1, h2⟩ := h
  cases hc : compAt? st e.1 with
  | none => rw [hc] at h1; simp at h1
  | some c =>
    refine ⟨c, rfl, ?_⟩
    rw [hc] at h2
    simpa using h2

/-- An unconnected pin is referenced by no registered net. -/
theorem pin_unreferenced {st : St} (hNF : NetsForward st) {cn : String} {c : Component}
    (hC : compAt? st cn = some c) {pos : Nat} (hN : (pinAt c pos).net = none) :
    ∀ p ∈ st.nets, ∀ e ∈ (netAt st p.2).connections, e.1 = cn → pos ∉ e.2 := by
  intro p hp e he hecn hmem
  obtain ⟨c2, hc2, hb⟩ := ConnOk_elim (hNF p hp e he)
  rw [hecn, hC] at hc2
  cases hc2
  have := (hb pos hmem).2
  rw [hN] at this
  exact Option.noConfusion this

theorem inv_netConnect {st : St} {nid : Nat} (hInv : Inv st) (hreg : regNet st nid)
    (cn : String) (sel : PinSel) : Inv (netConnect st nid cn sel).2 := by
  obtain ⟨⟨hRC, hRCnd⟩, ⟨hCW, hCWnd⟩, hNF, hCS, hPB⟩ := hInv
  rcases hr : netConnect st nid cn sel with ⟨oe, st2⟩
  cases oe with
  | some e =>
    cases netConnect_err hr
    exact ⟨⟨hRC, hRCnd⟩, ⟨hCW, hCWnd⟩, hNF, hCS, hPB⟩
  | none =>
    obtain ⟨c, pos, hC, hR, hN, hst2⟩ := netConnect_ok hr
    obtain ⟨prn, hprMem, hprEq⟩ := hreg
    have hnidlt : nid < st.netHeap.length := by
      have := (hRC prn hprMem).1; omega
    have hpos : pos < c.pins.length := resolvePinStrict_lt hR
    have hcmem : (cn, c) ∈ st.components := lookupKey_mem hC
    obtain ⟨hcname, hcne, hcidx, hcnames⟩ := hCW (cn, c) hcmem
    have hidx : (pinAt c pos).index = pos := hcidx pos (List.mem_range.mpr hpos)
    rw [hidx] at hst2
    subst hst2
    have hnets2 : (updatePinNet (addConn st nid cn pos) cn pos (some nid)).nets = st.nets := rfl
    have hlen2 : (updatePinNet (addConn st nid cn pos) cn pos (some nid)).netHeap.length =
        st.netHeap.length := length_modifyAt ..
    have hnetNe : ∀ m, m ≠ nid →
        netAt (updatePinNet (addConn st nid cn pos) cn pos (some nid)) m = netAt st m :=
      fun m hm => netAt_addConn_ne st nid cn pos hm
    have hnetN : netAt (updatePinNet (addConn st nid cn pos) cn pos (some nid)) nid =
        { netAt st nid with connections := setdefaultAdd (netAt st nid).connections cn pos } :=
      netAt_addConn_self st nid cn pos hnidlt
    have hcompcn : compAt? (updatePinNet (addConn st nid cn pos) cn pos (some nid)) cn =
        some { c with pins := modifyAt c.pins pos (fun p => { p with net := some nid }) } := by
      rw [compAt?_updatePinNet, if_pos rfl, compAt?_addConn, hC, Option.map_some']
    have hcompNe : ∀ k, k ≠ cn →
        compAt? (updatePinNet (addConn st nid cn pos) cn pos (some nid)) k = compAt? st k := by
      intro k hk
      rw [compAt?_updatePinNet, if_neg hk, compAt?_addConn]
    have hpin2self :
        pinAt { c with pins := modifyAt c.pins pos (fun p => { p with net := some nid }) } pos =
          { pinAt c pos with net := some nid } := pinAt_modify_self _ hpos
    have hpin2ne : ∀ j, j ≠ pos →
        pinAt { c with pins := modifyAt c.pins pos (fun p => { p with net := some nid }) } j =
          pinAt c j := fun j hj => pinAt_modify_ne _ hj
    have hlenc : ({ c with pins := modifyAt c.pins pos (fun p => { p with net := some nid }) } : Component).pins.length = c.pins.length := by
      rw [withPins_pins]; exact length_modifyAt ..
    have hunref := pin_unreferenced hNF hC hN
    refine ⟨⟨?_, ?_⟩, ⟨?_, ?_⟩, ?_, ?_, ?_⟩
    · -- registry coherence
      intro p hp
      rw [hnets2] at hp
      have h1 := hRC p hp
      refine ⟨by rw [hlen2]; exact h1.1, ?_⟩
      by_cases hm : p.2 = nid
      · rw [hm, hnetN, withConns_name]
        rw [hm] at h1
        exact h1.2
      · rw [hnetNe p.2 hm]
        exact h1.2
    · rw [hnets2]
      exact hRCnd
    · -- components well-formed
      intro q hq
      have hq2 : q ∈ (updatePinNet st cn pos (some nid)).components := hq
      rw [mem_components_updatePinNet] at hq2
      obtain ⟨⟨k0, c0⟩, hq0, rfl⟩ := hq2
      obtain ⟨hn0, he0, hi0, hnm0⟩ := hCW (k0, c0) hq0
      dsimp only at hn0 hi0 hnm0 he0 ⊢
      by_cases hkey : k0 = cn
      · rw [if_pos hkey]
        have hc0 : c = c0 := by
          have h3 := mem_lookupKey_of_nodup hCWnd hq0
          rw [hkey] at h3
          rw [show lookupKey st.components cn = compAt? st cn from rfl, hC] at h3
          exact Option.some.inj h3
        subst hc0
        refine ⟨by simpa using hn0, ?_, ?_, ?_⟩
        · simp only [withPins_pins]
          intro hnil
          have hL : (modifyAt c.pins pos fun p => { p with net := some nid }).length =
              c.pins.length := length_modifyAt ..
          rw [hnil] at hL
          exact he0 (List.length_eq_zero.mp hL.symm)
        · intro i hi
          rw [hlenc] at hi
          by_cases hip : i = pos
          · subst hip
            rw [hpin2self, withNet_index]
            exact hi0 i hi
          · rw [hpin2ne i hip]
            exact hi0 i hi
        · simp only [withPins_pins]
          rw [map_modifyAt_eq (show ∀ x : Pin, ({ x with net := some nid } : Pin).name = x.name from fun x => rfl)]
          exact hnm0
      · rw [if_neg hkey]
        exact ⟨hn0, he0, hi0, hnm0⟩
    · -- component keys nodup
      rw [show (updatePinNet (addConn st nid cn pos) cn pos (some nid)).components.map Prod.fst
          = st.components.map Prod.fst from keys_updatePinNet (addConn st nid cn pos) cn pos
          (some nid)]
      exact hCWnd
    · -- forward lockstep
      intro p hp e he
      rw [hnets2] at hp
      by_cases hm : p.2 = nid
      · rw [hm, hnetN, withConns_connections] at he
        rw [hm]
        have hkeysnd := (hCS p hp).1
        rw [hm] at hkeysnd
        by_cases hecn : e.1 = cn
        · have hlk : lookupKey (setdefaultAdd (netAt st nid).connections cn pos) e.1 = some e.2 := by
            rcases e with ⟨e1, e2⟩
            exact mem_lookupKey_of_nodup (keys_setdefaultAdd_nodup cn pos hkeysnd) he
          rw [hecn, lookupKey_setdefaultAdd_self] at hlk
          have he2 : e.2 = insertSet ((lookupKey (netAt st nid).connections cn).getD []) pos :=
            (Option.some.inj hlk).symm
          refine ConnOk_of (c := { c with pins := modifyAt c.pins pos (fun p => { p with net := some nid }) }) (by rw [hecn]; exact hcompcn) ?_
          intro idx hidx2
          rw [he2] at hidx2
          rcases mem_insertSet.mp hidx2 with rfl | hold
          · exact ⟨by rw [hlenc]; exact hpos, by rw [hpin2self, withNet_net]⟩
          · cases hl0 : lookupKey (netAt st nid).connections cn with
            | none => rw [hl0] at hold; simp at hold
            | some s0 =>
              rw [hl0] at hold
              simp only [Option.getD_some] at hold
              have hmem0 : (cn, s0) ∈ (netAt st nid).connections := lookupKey_mem hl0
              have hok := hNF p hp (cn, s0) (by rw [hm]; exact hmem0)
              obtain ⟨c2, hc2, hb⟩ := ConnOk_elim hok
              rw [hm] at hb
              simp only at hc2
              rw [hC] at hc2
              cases hc2
              have hidxne : idx ≠ pos := by
                intro hcontra
                subst hcontra
                exact hunref p hp (cn, s0) (by rw [hm]; exact hmem0) rfl hold
              refine ⟨by rw [hlenc]; exact (hb idx hold).1, ?_⟩
              rw [hpin2ne idx hidxne]
              exact (hb idx hold).2
        · have hlk : lookupKey (setdefaultAdd (netAt st nid).connections cn pos) e.1 = some e.2 := by
            rcases e with ⟨e1, e2⟩
            exact mem_lookupKey_of_nodup (keys_setdefaultAdd_nodup cn pos hkeysnd) he
          rw [lookupKey_setdefaultAdd_ne _ pos hecn] at hlk
          have hmem0 : e ∈ (netAt st nid).connections := by
            rcases e with ⟨e1, e2⟩
            exact lookupKey_mem hlk
          have hok := hNF p hp e (by rw [hm]; exact hmem0)
          obtain ⟨c2, hc2, hb⟩ := ConnOk_elim hok
          rw [hm] at hb
          refine ConnOk_of (c := c2) (by rw [hcompNe e.1 hecn]; exact hc2) ?_
          exact hb
      · rw [hnetNe p.2 hm] at he
        have hok := hNF p hp e he
        obtain ⟨c2, hc2, hb⟩ := ConnOk_elim hok
        by_cases hecn : e.1 = cn
        · rw [hecn, hC] at hc2
          cases hc2
          refine ConnOk_of (c := { c with pins := modifyAt c.pins pos (fun p => { p with net := some nid }) }) (by rw [hecn]; exact hcompcn) ?_
          intro idx hidx2
          have hidxne : idx ≠ pos := by
            intro hcontra
            subst hcontra
            exact hunref p hp e he hecn hidx2
          refine ⟨by rw [hlenc]; exact (hb idx hidx2).1, ?_⟩
          rw [hpin2ne idx hidxne]
          exact (hb idx hidx2).2
        · refine ConnOk_of (c := c2) (by rw [hcompNe e.1 hecn]; exact hc2) ?_
          exact hb
    · -- connection maps remain set dictionaries
      intro p hp
      rw [hnets2] at hp
      by_cases hm : p.2 = nid
      · rw [hm, hnetN, withConns_connections]
        have h0 := hCS p hp
        rw [hm] at h0
        exact ⟨keys_setdefaultAdd_nodup cn pos h0.1, sets_setdefaultAdd_nodup h0.2⟩
      · rw [hnetNe p.2 hm]
        exact hCS p hp
    · -- backward lockstep
      intro q hq i hi
      have hq2 : q ∈ (updatePinNet st cn pos (some nid)).components := hq
      rw [mem_components_updatePinNet] at hq2
      obtain ⟨⟨k0, c0⟩, hq0, rfl⟩ := hq2
      dsimp only at hi ⊢
      by_cases hkey : k0 = cn
      · rw [if_pos hkey] at hi ⊢
        have hc0 : c = c0 := by
          have h3 := mem_lookupKey_of_nodup hCWnd hq0
          rw [hkey] at h3
          rw [show lookupKey st.components cn = compAt? st cn from rfl, hC] at h3
          exact Option.some.inj h3
        subst hc0
        rw [hlenc] at hi
        by_cases hip : i = pos
        · subst hip
          rw [hpin2self]
          intro m hmm
          simp only [withNet_net, Option.toList_some, List.mem_singleton] at hmm
          subst hmm
          refine ⟨⟨prn, hprMem, hprEq⟩, ?_⟩
          rw [withNet_index, hidx, hkey, hnetN, withConns_connections,
            lookupKey_setdefaultAdd_self]
          simp only [Option.getD_some]
          exact mem_insertSet.mpr (Or.inl rfl)
        · rw [hpin2ne i hip]
          have hpb := hPB (cn, c) hcmem i hi
          intro m hmm
          obtain ⟨hreg0, hmem0⟩ := hpb m hmm
          refine ⟨hreg0, ?_⟩
          by_cases hmn : m = nid
          · rw [hkey, hmn, hnetN, withConns_connections, lookupKey_setdefaultAdd_self]
            simp only [Option.getD_some]
            rw [hmn] at hmem0
            exact mem_insertSet.mpr (Or.inr hmem0)
          · rw [hkey, hnetNe m hmn]
            exact hmem0
      · rw [if_neg hkey] at hi ⊢
        have hpb := hPB (k0, c0) hq0 i hi
        intro m hmm
        obtain ⟨hreg0, hmem0⟩ := hpb m hmm
        refine ⟨hreg0, ?_⟩
        by_cases hmn : m = nid
        · rw [hmn, hnetN, withConns_connections, lookupKey_setdefaultAdd_ne _ pos hkey]
          rw [hmn] at hmem0
          exact hmem0
        · rw [hnetNe m hmn]
          exact hmem0

/-! ## Preservation through the registration operations -/

theorem getD_append_left {l l2 : List α} {n : Nat} (d : α) (h : n < l.length) :
    (l ++ l2).getD n d = l.getD n d := by
  induction l generalizing n with
  | nil => simp at h
  | cons x xs ih =>
    cases n with
    | zero => rfl
    | succ m => simpa using ih (by simpa using h)

theorem getD_append_self {l : List α} (x d : α) : (l ++ [x]).getD l.length d = x := by
  induction l with
  | nil => rfl
  | cons y ys ih => simp only [List.cons_append, List.length_cons, List.getD_cons_succ]; exact ih

theorem inv_addNet {st : St} (hInv : Inv st) (nm : String) (g : Bool) :
    Inv (addNet st nm g).2 := by
  obtain ⟨⟨hRC, hRCnd⟩, ⟨hCW, hCWnd⟩, hNF, hCS, hPB⟩ := hInv
  unfold addNet
  split
  · exact ⟨⟨hRC, hRCnd⟩, ⟨hCW, hCWnd⟩, hNF, hCS, hPB⟩
  · split
    · exact ⟨⟨hRC, hRCnd⟩, ⟨hCW, hCWnd⟩, hNF, hCS, hPB⟩
    · rename_i hfr hdup
      have hnotin : nm ∉ st.nets.map Prod.fst := by
        rw [← lookupKey_eq_none_iff]
        cases hlk : lookupKey st.nets nm with
        | none => rfl
        | some v => rw [hlk] at hdup; simp at hdup
      have hnetAt : ∀ m, m < st.netHeap.length →
          netAt { st with netHeap := st.netHeap ++ [⟨nm, g, []⟩],
                          nets := st.nets ++ [(nm, st.netHeap.length)] } m = netAt st m := by
        intro m hm
        unfold netAt
        exact getD_append_left _ hm
      have hnetNew : netAt { st with netHeap := st.netHeap ++ [⟨nm, g, []⟩], nets := st.nets ++ [(nm, st.netHeap.length)] } st.netHeap.length = ⟨nm, g, []⟩ := by
        unfold netAt
        exact getD_append_self _ _
      refine ⟨⟨?_, ?_⟩, ⟨hCW, hCWnd⟩, ?_, ?_, ?_⟩
      · intro p hp
        rcases List.mem_append.mp hp with hold | hnew
        · have h1 := hRC p hold
          refine ⟨by simp only [List.length_append, List.length_cons, List.length_nil]; omega, ?_⟩
          rw [hnetAt p.2 h1.1]
          exact h1.2
        · rw [List.mem_singleton] at hnew
          subst hnew
          exact ⟨by simp, by rw [hnetNew]⟩
      · simp only [List.map_append, List.map_cons, List.map_nil]
        rw [List.nodup_append]
        exact ⟨hRCnd, List.nodup_singleton nm, by simpa using hnotin⟩
      · intro p hp e he
        rcases List.mem_append.mp hp with hold | hnew
        · have hb := (hRC p hold).1
          rw [hnetAt p.2 hb] at he
          obtain ⟨c2, hc2, hok⟩ := ConnOk_elim (hNF p hold e he)
          exact ConnOk_of hc2 hok
        · rw [List.mem_singleton] at hnew
          subst hnew
          simp only at he
          rw [hnetNew] at he
          simp at he
      · intro p hp
        rcases List.mem_append.mp hp with hold | hnew
        · have hb := (hRC p hold).1
          rw [hnetAt p.2 hb]
          exact hCS p hold
        · rw [List.mem_singleton] at hnew
          subst hnew
          simp only
          rw [hnetNew]
          exact ⟨List.nodup_nil, by simp⟩
      · intro q hq i hi
        have hpb := hPB q hq i hi
        intro m hmm
        obtain ⟨⟨pe, hpe, hpe2⟩, hmem0⟩ := hpb m hmm
        refine ⟨⟨pe, List.mem_append.mpr (Or.inl hpe), hpe2⟩, ?_⟩
        have hb := (hRC pe hpe).1
        rw [hpe2] at hb
        rw [hnetAt m hb]
        exact hmem0

theorem mkComponent_ok {nm : String} {pns : List String} {c : Component}
    (h : mkComponent nm pns = .ok c) :
    c.cname = nm ∧ c.pins ≠ [] ∧ c.pins.length = pns.length ∧
    (∀ i ∈ List.range c.pins.length, pinAt c i = ⟨i, pns.getD i "", none⟩) ∧
    (c.pins.map Pin.name).Nodup := by
  unfold mkComponent at h
  split at h
  · exact Except.noConfusion h
  · split at h
    · cases h
      rename_i hne hnd
      refine ⟨rfl, ?_, ?_, ?_, ?_⟩
      · simp only [withPins_pins]
        intro hc
        have := congrArg List.length hc
        simp only [List.length_map, List.enum_length, List.length_nil] at this
        exact hne (List.length_eq_zero.mp this)
      · simp
      · intro i hi
        simp only [withPins_pins, List.length_map, List.enum_length, List.mem_range] at hi
        unfold pinAt
        simp only [withPins_pins]
        rw [List.getD_eq_getElem?_getD, List.getElem?_map, List.getElem?_enum,
          List.getElem?_eq_getElem hi]
        simp only [Option.map_some', Option.getD_some]
        rw [List.getD_eq_getElem?_getD, List.getElem?_eq_getElem hi]
        rfl
      · have : (List.map Pin.name ((pns.enum).map (fun p => (⟨p.1, p.2, none⟩ : Pin)))) = pns := by
          rw [List.map_map]
          have : (Pin.name ∘ fun p : Nat × String => (⟨p.1, p.2, none⟩ : Pin)) = Prod.snd := rfl
          rw [this, List.enum_map_snd]
        simp only [withPins_pins]
        rw [this]
        assumption
    · exact Except.noConfusion h

theorem inv_addComponent {st : St} {c : Component} (hInv : Inv st)
    (hne : c.pins ≠ [])
    (hpt : ∀ i ∈ List.range c.pins.length, (pinAt c i).index = i ∧ (pinAt c i).net = none)
    (hnames : (c.pins.map Pin.name).Nodup) :
    Inv (addComponent st c).2 := by
  obtain ⟨⟨hRC, hRCnd⟩, ⟨hCW, hCWnd⟩, hNF, hCS, hPB⟩ := hInv
  unfold addComponent
  split
  · exact ⟨⟨hRC, hRCnd⟩, ⟨hCW, hCWnd⟩, hNF, hCS, hPB⟩
  · split
    · exact ⟨⟨hRC, hRCnd⟩, ⟨hCW, hCWnd⟩, hNF, hCS, hPB⟩
    · rename_i hfr hdup
      have hnotin : c.cname ∉ st.components.map Prod.fst := by
        rw [← lookupKey_eq_none_iff]
        cases hlk : lookupKey st.components c.cname with
        | none => rfl
        | some v => rw [hlk] at hdup; simp at hdup
      refine ⟨⟨hRC, hRCnd⟩, ⟨?_, ?_⟩, ?_, hCS, ?_⟩
      · intro q hq
        rcases List.mem_append.mp hq with hold | hnew
        · exact hCW q hold
        · rw [List.mem_singleton] at hnew
          subst hnew
          exact ⟨rfl, hne, fun i hi => (hpt i hi).1, hnames⟩
      · simp only [List.map_append, List.map_cons, List.map_nil]
        rw [List.nodup_append]
        exact ⟨hCWnd, List.nodup_singleton _, by simpa using hnotin⟩
      · intro p hp e he
        obtain ⟨c2, hc2, hb⟩ := ConnOk_elim (hNF p hp e he)
        exact ConnOk_of (show lookupKey (st.components ++ [(c.cname, c)]) e.1 = some c2 from
          lookupKey_append_left _ hc2) hb
      · intro q hq i hi
        rcases List.mem_append.mp hq with hold | hnew
        · exact hPB q hold i hi
        · rw [List.mem_singleton] at hnew
          subst hnew
          intro m hmm
          rw [(hpt i hi).2] at hmm
          simp at hmm

theorem inv_addComponentOp {st : St} (hInv : Inv st) (nm : String) (pns : List String) :
    Inv (addComponentOp st nm pns).2 := by
  unfold addComponentOp
  split
  · exact hInv
  · rename_i c hmk
    obtain ⟨hcn, hne, hlen, hpt, hnames⟩ := mkComponent_ok hmk
    refine inv_addComponent hInv hne ?_ hnames
    intro i hi
    rw [hpt i hi]
    exact ⟨rfl, rfl⟩

theorem nets_netConnect (st : St) (nid : Nat) (cn : String) (sel : PinSel) :
    (netConnect st nid cn sel).2.nets = st.nets := by
  rcases hr : netConnect st nid cn sel with ⟨oe, st2⟩
  cases oe with
  | some e => rw [netConnect_err hr]
  | none =>
    obtain ⟨c, pos, hC, hR, hN, hst2⟩ := netConnect_ok hr
    rw [hst2]
    rfl

theorem regNet_netConnect {st : St} {nid2 : Nat} (h : regNet st nid2)
    (nid : Nat) (cn : String) (sel : PinSel) : regNet (netConnect st nid cn sel).2 nid2 := by
  unfold regNet at h ⊢
  rw [nets_netConnect]
  exact h

theorem netByName_ok {st : St} {n : String} {nid : Nat} (h : netByName st n = .ok nid) :
    regNet st nid := by
  unfold netByName at h
  split at h
  · cases h
    rename_i hlk
    exact ⟨(n, nid), lookupKey_mem hlk, rfl⟩
  · exact Except.noConfusion h

theorem inv_schConnect {st : St} (hInv : Inv st) (n c : String) (sel : PinSel) :
    Inv (schConnect st n c sel).2 := by
  unfold schConnect
  split
  · exact hInv
  · split
    · exact hInv
    · rename_i nid hok
      split
      · exact hInv
      · exact inv_netConnect hInv (netByName_ok hok) c sel

theorem inv_connectCreateNet {st : St} (hInv : Inv st) (n c : String) (sel : PinSel) :
    Inv (connectCreateNet st n c sel).2 := by
  simp only [connectCreateNet]
  split
  · exact hInv
  · split
    · rename_i e st1 heq
      split at heq
      · cases heq
      · have := inv_addNet hInv n false
        rw [heq] at this
        exact this
    · rename_i st1 heq
      have hInv1 : Inv st1 := by
        split at heq
        · cases heq
          exact hInv
        · have := inv_addNet hInv n false
          rw [heq] at this
          exact this
      exact inv_schConnect hInv1 n c sel

/-! ## The merge step -/

theorem modifyAt_modifyAt (l : List α) (i : Nat) (f g : α → α) :
    modifyAt (modifyAt l i f) i g = modifyAt l i (fun x => g (f x)) := by
  induction l generalizing i with
  | nil => rfl
  | cons x xs ih =>
    cases i with
    | zero => rfl
    | succ n => simp [modifyAt, ih]

theorem components_updatePinNet_twice (st : St) (cn : String) (i : Nat) (v w : Option Nat) :
    (updatePinNet (updatePinNet st cn i v) cn i w).components =
      (updatePinNet st cn i w).components := by
  unfold updatePinNet updateComp
  dsimp only
  rw [List.map_map]
  apply List.map_congr_left
  intro p hp
  obtain ⟨k, c⟩ := p
  by_cases hk : k = cn
  · subst hk
    simp [modifyAt_modifyAt]
  · simp [hk]

theorem comps_moveOne (tid : Nat) (st : St) (cn : String) (i : Nat) :
    (moveOne tid st cn i).components = (updatePinNet st cn i (some tid)).components :=
  components_updatePinNet_twice st cn i none (some tid)

theorem netHeap_moveOne (tid : Nat) (st : St) (cn : String) (i : Nat) :
    (moveOne tid st cn i).netHeap =
      modifyAt st.netHeap tid
        (fun nd => { nd with connections := setdefaultAdd nd.connections cn i }) := rfl

theorem nets_moveOne (tid : Nat) (st : St) (cn : String) (i : Nat) :
    (moveOne tid st cn i).nets = st.nets := rfl

theorem frozen_moveOne (tid : Nat) (st : St) (cn : String) (i : Nat) :
    (moveOne tid st cn i).frozen = st.frozen := rfl

theorem merge_fold_eq (tid : Nat) (conns : List (String × List Nat)) (st : St) :
    conns.foldl (fun acc e => e.2.foldl (fun acc2 idx => moveOne tid acc2 e.1 idx) acc) st =
      foldMove tid (movePairs conns) st := by
  induction conns generalizing st with
  | nil => rfl
  | cons e rest ih =>
    simp only [List.foldl_cons, movePairs, List.flatMap_cons, foldMove, List.foldl_append,
      List.foldl_map]
    rw [ih]
    rfl

theorem nets_foldMove (tid : Nat) (ps : List (String × Nat)) (st : St) :
    (foldMove tid ps st).nets = st.nets := by
  induction ps generalizing st with
  | nil => rfl
  | cons pr rest ih => simpa [foldMove] using ih (moveOne tid st pr.1 pr.2)

theorem frozen_foldMove (tid : Nat) (ps : List (String × Nat)) (st : St) :
    (foldMove tid ps st).frozen = st.frozen := by
  induction ps generalizing st with
  | nil => rfl
  | cons pr rest ih => simpa [foldMove] using ih (moveOne tid st pr.1 pr.2)

theorem len_foldMove (tid : Nat) (ps : List (String × Nat)) (st : St) :
    (foldMove tid ps st).netHeap.length = st.netHeap.length := by
  induction ps generalizing st with
  | nil => rfl
  | cons pr rest ih =>
    have h1 := ih (moveOne tid st pr.1 pr.2)
    have h2 : (moveOne tid st pr.1 pr.2).netHeap.length = st.netHeap.length := by
      rw [netHeap_moveOne]
      exact length_modifyAt ..
    simp only [foldMove, List.foldl_cons] at h1 ⊢
    rw [h1, h2]

theorem netAt_moveOne_ne (tid : Nat) (st : St) (cn : String) (i : Nat) {m : Nat} (h : m ≠ tid) :
    netAt (moveOne tid st cn i) m = netAt st m := by
  unfold netAt
  rw [netHeap_moveOne]
  exact getD_modifyAt_ne _ _ h

theorem netAt_moveOne_self (tid : Nat) (st : St) (cn : String) (i : Nat)
    (h : tid < st.netHeap.length) :
    netAt (moveOne tid st cn i) tid =
      { netAt st tid with connections := setdefaultAdd (netAt st tid).connections cn i } := by
  unfold netAt
  rw [netHeap_moveOne]
  exact getD_modifyAt_self _ _ h

theorem netAt_foldMove_ne (tid : Nat) (ps : List (String × Nat)) (st : St) {m : Nat}
    (h : m ≠ tid) : netAt (foldMove tid ps st) m = netAt st m := by
  induction ps generalizing st with
  | nil => rfl
  | cons pr rest ih =>
    simp only [foldMove, List.foldl_cons]
    have h1 := ih (moveOne tid st pr.1 pr.2)
    simp only [foldMove] at h1
    rw [h1, netAt_moveOne_ne tid st pr.1 pr.2 h]

theorem netAt_foldMove_self (tid : Nat) (ps : List (String × Nat)) (st : St)
    (h : tid < st.netHeap.length) :
    netAt (foldMove tid ps st) tid =
      { netAt st tid with connections := foldConns ps (netAt st tid).connections } := by
  induction ps generalizing st with
  | nil => rfl
  | cons pr rest ih =>
    simp only [foldMove, List.foldl_cons, foldConns]
    have h2 : tid < (moveOne tid st pr.1 pr.2).netHeap.length := by
      rw [netHeap_moveOne, length_modifyAt]
      exact h
    have h1 := ih (moveOne tid st pr.1 pr.2) h2
    simp only [foldMove, foldConns] at h1
    rw [h1, netAt_moveOne_self tid st pr.1 pr.2 h]

theorem pinAt_updComp (c : Component) (pos j : Nat) (v : Option Nat) (hj : j < c.pins.length) :
    pinAt { c with pins := modifyAt c.pins pos (fun p => { p with net := v }) } j =
      if j = pos then { pinAt c j with net := v } else pinAt c j := by
  by_cases hjp : j = pos
  · subst hjp
    rw [if_pos rfl]
    exact pinAt_modify_self _ hj
  · rw [if_neg hjp]
    exact pinAt_modify_ne _ hjp

theorem comp_foldMove (tid : Nat) (ps : List (String × Nat)) :
    ∀ (st : St) (k : String) (c : Component), compAt? st k = some c →
      ∃ c2, compAt? (foldMove tid ps st) k = some c2 ∧
        c2.cname = c.cname ∧ c2.pins.length = c.pins.length ∧
        c2.pins.map Pin.name = c.pins.map Pin.name ∧
        ∀ j, j < c.pins.length →
          pinAt c2 j = if (k, j) ∈ ps then { pinAt c j with net := some tid }
            else pinAt c j := by
  induction ps with
  | nil =>
    intro st k c hc
    exact ⟨c, hc, rfl, rfl, rfl, fun j hj => by simp⟩
  | cons pr rest ih =>
    intro st k c hc
    have hstep : compAt? (moveOne tid st pr.1 pr.2) k =
        if k = pr.1 then
          (compAt? st k).map (fun c0 =>
            { c0 with pins := modifyAt c0.pins pr.2 (fun p => { p with net := some tid }) })
        else compAt? st k := by
      have h0 : compAt? (moveOne tid st pr.1 pr.2) k =
          compAt? (updatePinNet st pr.1 pr.2 (some tid)) k := by
        unfold compAt?
        rw [comps_moveOne]
      rw [h0]
      exact compAt?_updatePinNet st pr.1 pr.2 (some tid) k
    have hfold : foldMove tid (pr :: rest) st = foldMove tid rest (moveOne tid st pr.1 pr.2) := rfl
    by_cases hk : k = pr.1
    · have hcmid : compAt? (moveOne tid st pr.1 pr.2) k = some { c with pins := modifyAt c.pins pr.2 (fun p => { p with net := some tid }) } := by
        rw [hstep, if_pos hk, hc, Option.map_some']
      obtain ⟨c2, h2, hcn, hlen, hnames, hpt⟩ := ih (moveOne tid st pr.1 pr.2) k _ hcmid
      simp only [withPins_pins, length_modifyAt] at hlen hpt
      refine ⟨c2, by rw [hfold]; exact h2, by rw [hcn, withPins_cname], hlen, ?_, ?_⟩
      · rw [hnames, withPins_pins,
          map_modifyAt_eq (show ∀ x : Pin, ({ x with net := some tid } : Pin).name = x.name
            from fun x => rfl)]
      · intro j hj
        have hmid := pinAt_updComp c pr.2 j (some tid) hj
        rw [hpt j hj, hmid]
        by_cases hmem : (k, j) ∈ rest
        · rw [if_pos hmem, if_pos (List.mem_cons.mpr (Or.inr hmem))]
          by_cases hjp : j = pr.2 <;> simp [hjp]
        · rw [if_neg hmem]
          by_cases hjp : j = pr.2
          · subst hjp
            rw [if_pos rfl, if_pos (List.mem_cons.mpr (Or.inl (by rw [hk])))]
          · rw [if_neg hjp, if_neg (by
              intro hcon
              rcases List.mem_cons.mp hcon with h1 | h1
              · exact hjp (congrArg Prod.snd h1)
              · exact hmem h1)]
    · have hcmid : compAt? (moveOne tid st pr.1 pr.2) k = some c := by
        rw [hstep, if_neg hk, hc]
      obtain ⟨c2, h2, hcn, hlen, hnames, hpt⟩ := ih (moveOne tid st pr.1 pr.2) k _ hcmid
      refine ⟨c2, by rw [hfold]; exact h2, hcn, hlen, hnames, ?_⟩
      intro j hj
      rw [hpt j hj]
      have : ((k, j) ∈ pr :: rest) ↔ ((k, j) ∈ rest) := by
        rw [List.mem_cons]
        constructor
        · rintro (h1 | h1)
          · exact absurd (congrArg Prod.fst h1) hk
          · exact h1
        · exact Or.inr
      rw [show (if (k, j) ∈ rest then { pinAt c j with net := some tid } else pinAt c j) =
          (if (k, j) ∈ pr :: rest then { pinAt c j with net := some tid } else pinAt c j) from by
        rw [if_congr this rfl rfl]]

theorem compKeys_foldMove (tid : Nat) (ps : List (String × Nat)) (st : St) :
    (foldMove tid ps st).components.map Prod.fst = st.components.map Prod.fst := by
  induction ps generalizing st with
  | nil => rfl
  | cons pr rest ih =>
    simp only [foldMove, List.foldl_cons]
    have h1 := ih (moveOne tid st pr.1 pr.2)
    simp only [foldMove] at h1
    rw [h1, comps_moveOne]
    exact keys_updatePinNet ..

theorem foldConns_cons (pr : String × Nat) (rest : List (String × Nat))
    (cs : List (String × List Nat)) :
    foldConns (pr :: rest) cs = foldConns rest (setdefaultAdd cs pr.1 pr.2) := rfl

theorem mem_lookupKey_foldConns (ps : List (String × Nat)) :
    ∀ (cs : List (String × List Nat)) (k : String) (j : Nat),
      j ∈ (lookupKey (foldConns ps cs) k).getD [] ↔
        j ∈ (lookupKey cs k).getD [] ∨ (k, j) ∈ ps := by
  induction ps with
  | nil => simp [foldConns]
  | cons pr rest ih =>
    intro cs k j
    rw [foldConns_cons, ih]
    by_cases hk : k = pr.1
    · subst hk
      rw [lookupKey_setdefaultAdd_self]
      simp only [Option.getD_some, mem_insertSet, List.mem_cons]
      constructor
      · rintro ((rfl | hold) | hrest)
        · exact Or.inr (Or.inl (Prod.ext rfl rfl))
        · exact Or.inl hold
        · exact Or.inr (Or.inr hrest)
      · rintro (hold | (heq | hrest))
        · exact Or.inl (Or.inr hold)
        · exact Or.inl (Or.inl (congrArg Prod.snd heq))
        · exact Or.inr hrest
    · rw [lookupKey_setdefaultAdd_ne _ pr.2 hk]
      simp only [List.mem_cons]
      constructor
      · rintro (hold | hrest)
        · exact Or.inl hold
        · exact Or.inr (Or.inr hrest)
      · rintro (hold | (heq | hrest))
        · exact Or.inl hold
        · exact absurd (congrArg Prod.fst heq) hk
        · exact Or.inr hrest

theorem isSome_lookupKey_foldConns (ps : List (String × Nat)) :
    ∀ (cs : List (String × List Nat)) (k : String),
      (lookupKey (foldConns ps cs) k).isSome ↔
        (lookupKey cs k).isSome ∨ ∃ pr ∈ ps, pr.1 = k := by
  induction ps with
  | nil => simp [foldConns]
  | cons pr rest ih =>
    intro cs k
    rw [foldConns_cons, ih]
    by_cases hk : k = pr.1
    · subst hk
      rw [lookupKey_setdefaultAdd_self]
      simp
    · rw [lookupKey_setdefaultAdd_ne _ pr.2 hk]
      simp only [List.mem_cons]
      constructor
      · rintro (hold | ⟨q, hq, hq2⟩)
        · exact Or.inl hold
        · exact Or.inr ⟨q, Or.inr hq, hq2⟩
      · rintro (hold | ⟨q, (rfl | hq), hq2⟩)
        · exact Or.inl hold
        · exact absurd hq2 (fun hc => hk hc.symm)
        · exact Or.inr ⟨q, hq, hq2⟩

theorem keysNodup_foldConns (ps : List (String × Nat)) :
    ∀ cs : List (String × List Nat), (cs.map Prod.fst).Nodup →
      ((foldConns ps cs).map Prod.fst).Nodup := by
  induction ps with
  | nil => intro cs h; exact h
  | cons pr rest ih =>
    intro cs h
    rw [foldConns_cons]
    exact ih _ (keys_setdefaultAdd_nodup pr.1 pr.2 h)

theorem setsNodup_foldConns (ps : List (String × Nat)) :
    ∀ cs : List (String × List Nat), (∀ e ∈ cs, e.2.Nodup) →
      ∀ e ∈ foldConns ps cs, e.2.Nodup := by
  induction ps with
  | nil => intro cs h; exact h
  | cons pr rest ih =>
    intro cs h
    rw [foldConns_cons]
    exact ih _ (sets_setdefaultAdd_nodup h)

theorem degreeC_foldConns (ps : List (String × Nat)) :
    ∀ cs : List (String × List Nat), ps.Nodup →
      (∀ pr ∈ ps, pr.2 ∉ (lookupKey cs pr.1).getD []) →
      degreeC (foldConns ps cs) = degreeC cs + ps.length := by
  induction ps with
  | nil => intro cs _ _; rfl
  | cons pr rest ih =>
    intro cs hnd hdisj
    rw [foldConns_cons]
    have hfresh : pr.2 ∉ (lookupKey cs pr.1).getD [] := hdisj pr (by simp)
    have hdisj2 : ∀ q ∈ rest, q.2 ∉ (lookupKey (setdefaultAdd cs pr.1 pr.2) q.1).getD [] := by
      intro q hq
      by_cases hk : q.1 = pr.1
      · rw [hk, lookupKey_setdefaultAdd_self]
        simp only [Option.getD_some, mem_insertSet]
        rintro (heq | hold)
        · have : q = pr := by
            rcases q with ⟨q1, q2⟩
            rcases pr with ⟨p1, p2⟩
            simp only at hk heq
            rw [hk, heq]
          subst this
          exact (List.nodup_cons.mp hnd).1 hq
        · rw [← hk] at hold
          exact hdisj q (by simp [hq]) hold
      · rw [lookupKey_setdefaultAdd_ne _ pr.2 hk]
        exact hdisj q (by simp [hq])
    rw [ih _ (List.nodup_cons.mp hnd).2 hdisj2,
      degreeC_setdefaultAdd_not_mem hfresh]
    simp only [List.length_cons]
    omega

theorem mem_movePairs {conns : List (String × List Nat)} {k : String} {j : Nat} :
    (k, j) ∈ movePairs conns ↔ ∃ e ∈ conns, e.1 = k ∧ j ∈ e.2 := by
  unfold movePairs
  rw [List.mem_flatMap]
  constructor
  · rintro ⟨e, he, hmem⟩
    rw [List.mem_map] at hmem
    obtain ⟨i, hi, heq⟩ := hmem
    exact ⟨e, he, congrArg Prod.fst heq, by
      rw [show j = i from (congrArg Prod.snd heq).symm]; exact hi⟩
  · rintro ⟨e, he, rfl, hmem⟩
    exact ⟨e, he, List.mem_map.mpr ⟨j, hmem, rfl⟩⟩

theorem movePairs_nodup {conns : List (String × List Nat)}
    (hkeys : (conns.map Prod.fst).Nodup) (hsets : ∀ e ∈ conns, e.2.Nodup) :
    (movePairs conns).Nodup := by
  induction conns with
  | nil => exact List.nodup_nil
  | cons e rest ih =>
    unfold movePairs
    rw [List.flatMap_cons, List.nodup_append]
    simp only [List.map_cons, List.nodup_cons] at hkeys
    refine ⟨?_, ?_, ?_⟩
    · exact (hsets e (by simp)).map (fun a b hab => congrArg Prod.snd hab)
    · exact ih hkeys.2 (fun e2 he2 => hsets e2 (by simp [he2]))
    · intro pr hpr hpr2
      rw [List.mem_map] at hpr
      obtain ⟨i, hi, rfl⟩ := hpr
      have : (e.1, i) ∈ movePairs rest := hpr2
      rw [mem_movePairs] at this
      obtain ⟨e2, he2, he2f, he2m⟩ := this
      exact hkeys.1 (by rw [← he2f]; exact List.mem_map.mpr ⟨e2, he2, rfl⟩)

theorem length_movePairs (conns : List (String × List Nat)) :
    (movePairs conns).length = degreeC conns := by
  unfold movePairs degreeC
  rw [List.length_flatMap]
  congr 1
  apply List.map_congr_left
  intro e he
  simp

theorem merge_core {st : St} {tid sid : Nat} {sn : String}
    (hs : (sn, sid) ∈ st.nets) (hsname : (netAt st sid).name = sn)
    (hne : tid ≠ sid) (hfr : st.frozen = false) :
    mergeNets st tid sid =
      (none, { foldMove tid (movePairs (netAt st sid).connections) st with
               nets := st.nets.filter (fun p => p.1 ≠ sn) }) := by
  simp only [mergeNets]
  rw [if_neg (by rw [hfr]; simp), if_neg hne, merge_fold_eq, hsname]
  have h2 : delKey (foldMove tid (movePairs (netAt st sid).connections) st).nets sn =
      some (st.nets.filter (fun p => p.1 ≠ sn)) := by
    rw [nets_foldMove]
    unfold delKey
    rw [if_pos (by
      rw [lookupKey_isSome_iff]
      exact List.mem_map.mpr ⟨(sn, sid), hs, rfl⟩)]
  rw [h2]

theorem mem_filter_key_ne {l : List (String × α)} {sn : String} {p : String × α} :
    p ∈ l.filter (fun q => q.1 ≠ sn) ↔ p ∈ l ∧ p.1 ≠ sn := by
  rw [List.mem_filter]
  simp

theorem bool_eq_false {b : Bool} (h : ¬ b = true) : b = false := by
  cases b
  · rfl
  · exact absurd rfl h

theorem inv_mergeNets {st : St} {tid sid : Nat} (hInv : Inv st)
    (hrt : regNet st tid) (hrs : regNet st sid) :
    Inv (mergeNets st tid sid).2 := by
  obtain ⟨⟨hRC, hRCnd⟩, ⟨hCW, hCWnd⟩, hNF, hCS, hPB⟩ := hInv
  by_cases hfr : st.frozen = true
  · simp only [mergeNets, hfr, if_true]
    exact ⟨⟨hRC, hRCnd⟩, ⟨hCW, hCWnd⟩, hNF, hCS, hPB⟩
  · by_cases hts : tid = sid
    · simp only [mergeNets, bool_eq_false hfr, Bool.false_eq_true, if_false, hts, if_pos rfl]
      exact ⟨⟨hRC, hRCnd⟩, ⟨hCW, hCWnd⟩, hNF, hCS, hPB⟩
    · obtain ⟨pt, hptMem, hptEq⟩ := hrt
      obtain ⟨ps0, hpsMem, hpsEq⟩ := hrs
      have hptPair : pt = (pt.1, tid) := by rw [← hptEq]
      have hpsPair : ps0 = (ps0.1, sid) := by rw [← hpsEq]
      rw [hptPair] at hptMem
      rw [hpsPair] at hpsMem
      have hsname : (netAt st sid).name = ps0.1 := (hRC (ps0.1, sid) hpsMem).2
      have htname : (netAt st tid).name = pt.1 := (hRC (pt.1, tid) hptMem).2
      have hsbound : sid < st.netHeap.length := (hRC (ps0.1, sid) hpsMem).1
      have htbound : tid < st.netHeap.length := (hRC (pt.1, tid) hptMem).1
      rw [merge_core hpsMem hsname hts (bool_eq_false hfr)]
      have htn_ne_sn : pt.1 ≠ ps0.1 := by
        intro h
        have h1 := mem_lookupKey_of_nodup hRCnd hptMem
        have h2 := mem_lookupKey_of_nodup hRCnd hpsMem
        rw [h] at h1
        rw [h1] at h2
        exact hts (Option.some.inj h2)
      have hval_sid : ∀ p ∈ st.nets, p.2 = sid → p.1 = ps0.1 := by
        intro p hp hpeq
        have := (hRC p hp).2
        rw [hpeq, hsname] at this
        exact this.symm
      have hsetsnd := hCS (ps0.1, sid) hpsMem
      have hpsmem : ∀ k j, (k, j) ∈ movePairs (netAt st sid).connections ↔
          j ∈ (lookupKey (netAt st sid).connections k).getD [] := by
        intro k j
        rw [mem_movePairs]
        constructor
        · rintro ⟨e, he, rfl, hj⟩
          rcases e with ⟨e1, e2⟩
          rw [mem_lookupKey_of_nodup hsetsnd.1 he]
          simpa using hj
        · intro hj
          cases hl : lookupKey (netAt st sid).connections k with
          | none => rw [hl] at hj; simp at hj
          | some s =>
            rw [hl] at hj
            simp only [Option.getD_some] at hj
            exact ⟨(k, s), lookupKey_mem hl, rfl, hj⟩
      have hsrcOk : ∀ e ∈ (netAt st sid).connections, ConnOk st sid e :=
        hNF (ps0.1, sid) hpsMem
      have htgtOk : ∀ e ∈ (netAt st tid).connections, ConnOk st tid e :=
        hNF (pt.1, tid) hptMem
      have hps_src_pin : ∀ k j, (k, j) ∈ movePairs (netAt st sid).connections →
          ∃ c, compAt? st k = some c ∧ j < c.pins.length ∧ (pinAt c j).net = some sid := by
        intro k j hmem
        rw [hpsmem] at hmem
        cases hl : lookupKey (netAt st sid).connections k with
        | none => rw [hl] at hmem; simp at hmem
        | some s =>
          rw [hl] at hmem
          simp only [Option.getD_some] at hmem
          obtain ⟨c, hc, hb⟩ := ConnOk_elim (hsrcOk (k, s) (lookupKey_mem hl))
          exact ⟨c, hc, (hb j hmem).1, (hb j hmem).2⟩
      have hkeysF : (foldMove tid (movePairs (netAt st sid).connections) st).components.map
          Prod.fst = st.components.map Prod.fst := compKeys_foldMove ..
      have hkeysFnd : ((foldMove tid (movePairs (netAt st sid).connections) st).components.map
          Prod.fst).Nodup := by rw [hkeysF]; exact hCWnd
      have hnetM_ne : ∀ m, m ≠ tid →
          netAt (foldMove tid (movePairs (netAt st sid).connections) st) m = netAt st m :=
        fun m hm => netAt_foldMove_ne tid _ st hm
      have hnetM_t : netAt (foldMove tid (movePairs (netAt st sid).connections) st) tid =
          { netAt st tid with connections := foldConns (movePairs (netAt st sid).connections) (netAt st tid).connections } :=
        netAt_foldMove_self tid _ st htbound
      have hcompM : ∀ (k : String) (c : Component), compAt? st k = some c →
          ∃ c2, compAt? (foldMove tid (movePairs (netAt st sid).connections) st) k = some c2 ∧
            c2.cname = c.cname ∧ c2.pins.length = c.pins.length ∧
            c2.pins.map Pin.name = c.pins.map Pin.name ∧
            ∀ j, j < c.pins.length →
              pinAt c2 j = if (k, j) ∈ movePairs (netAt st sid).connections then
                { pinAt c j with net := some tid } else pinAt c j :=
        fun k c hc => comp_foldMove tid _ st k c hc
      refine ⟨⟨?_, ?_⟩, ⟨?_, ?_⟩, ?_, ?_, ?_⟩
      · -- registry coherence
        intro p hp
        rw [show ({ foldMove tid (movePairs (netAt st sid).connections) st with
            nets := st.nets.filter (fun q => q.1 ≠ ps0.1) } : St).nets =
            st.nets.filter (fun q => q.1 ≠ ps0.1) from rfl] at hp
        obtain ⟨hp1, hp2⟩ := mem_filter_key_ne.mp hp
        have h1 := hRC p hp1
        constructor
        · rw [show ({ foldMove tid (movePairs (netAt st sid).connections) st with
              nets := st.nets.filter (fun q => q.1 ≠ ps0.1) } : St).netHeap.length =
              (foldMove tid (movePairs (netAt st sid).connections) st).netHeap.length from rfl,
            len_foldMove]
          exact h1.1
        · by_cases hm : p.2 = tid
          · rw [show netAt ({ foldMove tid (movePairs (netAt st sid).connections) st with
                nets := st.nets.filter (fun q => q.1 ≠ ps0.1) } : St) p.2 =
                netAt (foldMove tid (movePairs (netAt st sid).connections) st) p.2 from rfl,
              hm, hnetM_t, withConns_name]
            rw [hm] at h1
            exact h1.2
          · rw [show netAt ({ foldMove tid (movePairs (netAt st sid).connections) st with
                nets := st.nets.filter (fun q => q.1 ≠ ps0.1) } : St) p.2 =
                netAt (foldMove tid (movePairs (netAt st sid).connections) st) p.2 from rfl,
              hnetM_ne p.2 hm]
            exact h1.2
      · -- registry keys nodup
        exact hRCnd.sublist (List.Sublist.map Prod.fst (List.filter_sublist st.nets))
      · -- components well-formed
        intro q hq
        rcases q with ⟨k, c2⟩
        have hc2 : compAt? (foldMove tid (movePairs (netAt st sid).connections) st) k =
            some c2 := mem_lookupKey_of_nodup hkeysFnd hq
        have hkmem : k ∈ st.components.map Prod.fst := by
          rw [← hkeysF]
          exact List.mem_map.mpr ⟨(k, c2), hq, rfl⟩
        obtain ⟨c, hc⟩ := Option.isSome_iff_exists.mp (lookupKey_isSome_iff.mpr hkmem)
        obtain ⟨c2b, hc2b, hcn, hlen, hnames, hpt⟩ := hcompM k c hc
        rw [hc2] at hc2b
        cases Option.some.inj hc2b
        obtain ⟨hn0, he0, hi0, hnm0⟩ := hCW (k, c) (lookupKey_mem hc)
        refine ⟨by rw [hcn]; exact hn0, ?_, ?_, ?_⟩
        · intro hnil
          rw [hnil] at hlen
          exact he0 (List.length_eq_zero.mp hlen.symm)
        · intro i hi
          rw [List.mem_range, hlen] at hi
          rw [hpt i hi]
          by_cases hmem : (k, i) ∈ movePairs (netAt st sid).connections
          · rw [if_pos hmem, withNet_index]
            exact hi0 i (List.mem_range.mpr hi)
          · rw [if_neg hmem]
            exact hi0 i (List.mem_range.mpr hi)
        · rw [hnames]
          exact hnm0
      · -- component keys nodup
        exact hkeysFnd
      · -- forward lockstep
        intro p hp e he
        obtain ⟨hp1, hp2⟩ := mem_filter_key_ne.mp hp
        have hpsid : p.2 ≠ sid := fun hc => hp2 (hval_sid p hp1 hc)
        by_cases hm : p.2 = tid
        · rw [show netAt ({ foldMove tid (movePairs (netAt st sid).connections) st with
              nets := st.nets.filter (fun q => q.1 ≠ ps0.1) } : St) p.2 =
              netAt (foldMove tid (movePairs (netAt st sid).connections) st) p.2 from rfl,
            hm, hnetM_t, withConns_connections] at he
          rw [hm]
          have hkeysnd2 : ((foldConns (movePairs (netAt st sid).connections)
              (netAt st tid).connections).map Prod.fst).Nodup :=
            keysNodup_foldConns _ _ (hCS (pt.1, tid) hptMem).1
          rcases e with ⟨e1, e2⟩
          have hlk := mem_lookupKey_of_nodup hkeysnd2 he
          have hane : (compAt? st e1).isSome := by
            have h1 := isSome_lookupKey_foldConns (movePairs (netAt st sid).connections)
              (netAt st tid).connections e1
            rw [hlk] at h1
            rcases h1.mp (by simp) with hold | ⟨pr, hpr, hpr2⟩
            · obtain ⟨s, hs⟩ := Option.isSome_iff_exists.mp hold
              obtain ⟨c, hc, _⟩ := ConnOk_elim (htgtOk (e1, s) (lookupKey_mem hs))
              rw [hc]
              rfl
            · rcases pr with ⟨k2, j2⟩
              obtain ⟨c, hc, _, _⟩ := hps_src_pin k2 j2 hpr
              rw [show k2 = e1 from hpr2] at hc
              rw [hc]
              rfl
          obtain ⟨c, hc⟩ := Option.isSome_iff_exists.mp hane
          obtain ⟨c2, hc2, hcn, hlen, hnames, hpt⟩ := hcompM e1 c hc
          refine ConnOk_of (c := c2)
            (show compAt? ({ foldMove tid (movePairs (netAt st sid).connections) st with
              nets := st.nets.filter (fun q => q.1 ≠ ps0.1) } : St) e1 = some c2 from hc2) ?_
          intro idx hidx
          have hidx2 : idx ∈ (lookupKey (foldConns (movePairs (netAt st sid).connections)
              (netAt st tid).connections) e1).getD [] := by
            rw [hlk]
            simpa using hidx
          rw [mem_lookupKey_foldConns] at hidx2
          rcases hidx2 with hold | hnew
          · -- a pair already on the target
            cases hl : lookupKey (netAt st tid).connections e1 with
            | none => rw [hl] at hold; simp at hold
            | some s =>
              rw [hl] at hold
              simp only [Option.getD_some] at hold
              obtain ⟨cb, hcb, hb⟩ := ConnOk_elim (htgtOk (e1, s) (lookupKey_mem hl))
              rw [hc] at hcb
              cases Option.some.inj hcb
              refine ⟨by rw [hlen]; exact (hb idx hold).1, ?_⟩
              rw [hpt idx (hb idx hold).1]
              by_cases hmem : (e1, idx) ∈ movePairs (netAt st sid).connections
              · rw [if_pos hmem, withNet_net]
              · rw [if_neg hmem]
                exact (hb idx hold).2
          · -- a pair moved from the source
            obtain ⟨cb, hcb, hbl, hbn⟩ := hps_src_pin e1 idx hnew
            rw [hc] at hcb
            cases Option.some.inj hcb
            refine ⟨by rw [hlen]; exact hbl, ?_⟩
            rw [hpt idx hbl, if_pos hnew, withNet_net]
        · -- an untouched net
          rw [show netAt ({ foldMove tid (movePairs (netAt st sid).connections) st with
              nets := st.nets.filter (fun q => q.1 ≠ ps0.1) } : St) p.2 =
              netAt (foldMove tid (movePairs (netAt st sid).connections) st) p.2 from rfl,
            hnetM_ne p.2 hm] at he
          obtain ⟨c, hc, hb⟩ := ConnOk_elim (hNF p hp1 e he)
          obtain ⟨c2, hc2, hcn, hlen, hnames, hpt⟩ := hcompM e.1 c hc
          refine ConnOk_of (c := c2)
            (show compAt? ({ foldMove tid (movePairs (netAt st sid).connections) st with
              nets := st.nets.filter (fun q => q.1 ≠ ps0.1) } : St) e.1 = some c2 from hc2) ?_
          intro idx hidx
          have hnotmoved : (e.1, idx) ∉ movePairs (netAt st sid).connections := by
            intro hcon
            obtain ⟨cb, hcb, hbl, hbn⟩ := hps_src_pin e.1 idx hcon
            rw [hc] at hcb
            cases Option.some.inj hcb
            have := (hb idx hidx).2
            rw [this] at hbn
            exact hpsid (Option.some.inj hbn)
          refine ⟨by rw [hlen]; exact (hb idx hidx).1, ?_⟩
          rw [hpt idx (hb idx hidx).1, if_neg hnotmoved]
          exact (hb idx hidx).2
      · -- connection maps remain set dictionaries
        intro p hp
        obtain ⟨hp1, hp2⟩ := mem_filter_key_ne.mp hp
        by_cases hm : p.2 = tid
        · rw [show netAt ({ foldMove tid (movePairs (netAt st sid).connections) st with
              nets := st.nets.filter (fun q => q.1 ≠ ps0.1) } : St) p.2 =
              netAt (foldMove tid (movePairs (netAt st sid).connections) st) p.2 from rfl,
            hm, hnetM_t, withConns_connections]
          exact ⟨keysNodup_foldConns _ _ (hCS (pt.1, tid) hptMem).1,
            setsNodup_foldConns _ _ (hCS (pt.1, tid) hptMem).2⟩
        · rw [show netAt ({ foldMove tid (movePairs (netAt st sid).connections) st with
              nets := st.nets.filter (fun q => q.1 ≠ ps0.1) } : St) p.2 =
              netAt (foldMove tid (movePairs (netAt st sid).connections) st) p.2 from rfl,
            hnetM_ne p.2 hm]
          exact hCS p hp1
      · -- backward lockstep
        intro q hq i hi
        rcases q with ⟨k, c2⟩
        have hc2 : compAt? (foldMove tid (movePairs (netAt st sid).connections) st) k =
            some c2 := mem_lookupKey_of_nodup hkeysFnd hq
        have hkmem : k ∈ st.components.map Prod.fst := by
          rw [← hkeysF]
          exact List.mem_map.mpr ⟨(k, c2), hq, rfl⟩
        obtain ⟨c, hc⟩ := Option.isSome_iff_exists.mp (lookupKey_isSome_iff.mpr hkmem)
        obtain ⟨c2b, hc2b, hcn, hlen, hnames, hpt⟩ := hcompM k c hc
        rw [hc2] at hc2b
        cases Option.some.inj hc2b
        obtain ⟨hn0, he0, hi0, hnm0⟩ := hCW (k, c) (lookupKey_mem hc)
        rw [List.mem_range, hlen] at hi
        rw [hpt i hi]
        by_cases hmem : (k, i) ∈ movePairs (netAt st sid).connections
        · rw [if_pos hmem]
          intro m hmm
          simp only [withNet_net, Option.toList_some, List.mem_singleton] at hmm
          rw [hmm]
          constructor
          · refine ⟨(pt.1, tid), mem_filter_key_ne.mpr ⟨hptMem, htn_ne_sn⟩, rfl⟩
          · rw [show netAt ({ foldMove tid (movePairs (netAt st sid).connections) st with
                nets := st.nets.filter (fun q => q.1 ≠ ps0.1) } : St) tid =
                netAt (foldMove tid (movePairs (netAt st sid).connections) st) tid from rfl,
              hnetM_t, withConns_connections, withNet_index, hi0 i (List.mem_range.mpr hi)]
            cases hl : lookupKey (foldConns (movePairs (netAt st sid).connections)
                (netAt st tid).connections) k with
            | none =>
              have h1 := mem_lookupKey_foldConns (movePairs (netAt st sid).connections)
                (netAt st tid).connections k i
              rw [hl] at h1
              simp only [Option.getD_none, List.not_mem_nil, false_iff] at h1
              exact absurd (Or.inr hmem) h1
            | some s =>
              have h1 := mem_lookupKey_foldConns (movePairs (netAt st sid).connections)
                (netAt st tid).connections k i
              rw [hl] at h1
              simp only [Option.getD_some] at h1 ⊢
              exact h1.mpr (Or.inr hmem)
        · rw [if_neg hmem]
          have hpb := hPB (k, c) (lookupKey_mem hc) i (List.mem_range.mpr hi)
          intro m hmm
          obtain ⟨⟨pe, hpe, hpeEq⟩, hmem0⟩ := hpb m hmm
          have hmsid : m ≠ sid := by
            intro hc2
            subst hc2
            rw [hi0 i (List.mem_range.mpr hi)] at hmem0
            exact hmem ((hpsmem k i).mpr hmem0)
          have hpe_ne : pe.1 ≠ ps0.1 := by
            intro hcon
            apply hmsid
            rw [← hpeEq]
            have h1 := mem_lookupKey_of_nodup hRCnd hpe
            rw [hcon] at h1
            have h2 := mem_lookupKey_of_nodup hRCnd hpsMem
            rw [h1] at h2
            exact Option.some.inj h2
          constructor
          · exact ⟨pe, mem_filter_key_ne.mpr ⟨hpe, hpe_ne⟩, hpeEq⟩
          · by_cases hmt : m = tid
            · rw [show netAt ({ foldMove tid (movePairs (netAt st sid).connections) st with
                  nets := st.nets.filter (fun q => q.1 ≠ ps0.1) } : St) m =
                  netAt (foldMove tid (movePairs (netAt st sid).connections) st) m from rfl,
                hmt, hnetM_t, withConns_connections]
              rw [hmt] at hmem0
              cases hl : lookupKey (foldConns (movePairs (netAt st sid).connections)
                  (netAt st tid).connections) k with
              | none =>
                have h1 := mem_lookupKey_foldConns (movePairs (netAt st sid).connections)
                  (netAt st tid).connections k (pinAt c i).index
                rw [hl] at h1
                simp only [Option.getD_none, List.not_mem_nil, false_iff] at h1
                exact absurd (Or.inl hmem0) h1
              | some s =>
                have h1 := mem_lookupKey_foldConns (movePairs (netAt st sid).connections)
                  (netAt st tid).connections k (pinAt c i).index
                rw [hl] at h1
                simp only [Option.getD_some] at h1 ⊢
                exact h1.mpr (Or.inl hmem0)
            · rw [show netAt ({ foldMove tid (movePairs (netAt st sid).connections) st with
                  nets := st.nets.filter (fun q => q.1 ≠ ps0.1) } : St) m =
                  netAt (foldMove tid (movePairs (netAt st sid).connections) st) m from rfl,
                hnetM_ne m hmt]
              exact hmem0

/-! ## Preservation through `connect_pins` -/

theorem resolveComponent_ok {st : St} {r : CompRef} {a : Component} (hInv : Inv st)
    (h : resolveComponent st r = .ok a) : compAt? st a.cname = some a := by
  obtain ⟨_, ⟨hCW, _⟩, _, _, _⟩ := hInv
  unfold resolveComponent compByName at h
  split at h
  · split at h
    · cases h
      rename_i heq
      have hmem := lookupKey_mem (show lookupKey st.components _ = some a from heq)
      have h2 := (hCW _ hmem).1
      rw [h2]
      exact heq
    · exact Except.noConfusion h
  · split at h
    · exact Except.noConfusion h
    · cases h
      rename_i heq
      have hmem := lookupKey_mem (show lookupKey st.components _ = some a from heq)
      have h2 := (hCW _ hmem).1
      rw [h2]
      exact heq

theorem resolvePinPy_lt {c : Component} {sel : PinSel} {pos : Nat}
    (h : resolvePinPy c sel = .ok pos) : pos < c.pins.length := by
  unfold resolvePinPy at h
  split at h
  · split at h
    · cases h
      rename_i hf
      exact (List.findIdx?_eq_some_iff_findIdx_eq.mp hf).1
    · exact Except.noConfusion h
  · rename_i i
    by_cases hi : i < 0
    · rw [if_pos hi] at h
      split at h
      · cases h
        rename_i hcond
        omega
      · exact Except.noConfusion h
    · rw [if_neg hi] at h
      split at h
      · cases h
        rename_i hcond
        omega
      · exact Except.noConfusion h

theorem pin_net_registered {st : St} {c : Component} {k : String} {pos nid : Nat}
    (hInv : Inv st) (hc : compAt? st k = some c) (hpos : pos < c.pins.length)
    (hn : (pinAt c pos).net = some nid) : regNet st nid := by
  obtain ⟨_, _, _, _, hPB⟩ := hInv
  have hpb := hPB (k, c) (lookupKey_mem hc) pos (List.mem_range.mpr hpos)
  have := hpb nid (by rw [hn]; simp)
  exact this.1

theorem inv_freeze {st : St} (hInv : Inv st) : Inv (freeze st) := hInv

theorem chooseName_inv {st : St} (hInv : Inv st) (nn : Option String) :
    Inv (match nn with
         | some s => if s = "" then newAutoNetName st else (s, st)
         | none => newAutoNetName st).2 := by
  cases nn with
  | none => exact hInv
  | some s =>
    by_cases h : s = ""
    · simp only [h, if_pos rfl]
      exact hInv
    · simp only [if_neg h]
      exact hInv

theorem chooseName_frozen (st : St) (nn : Option String) :
    (match nn with
     | some s => if s = "" then newAutoNetName st else (s, st)
     | none => newAutoNetName st).2.frozen = st.frozen := by
  cases nn with
  | none => rfl
  | some s =>
    by_cases h : s = ""
    · simp only [h, if_pos rfl]
      rfl
    · simp only [if_neg h]

theorem obtainNet_eq_addNet {st1 : St} (hfr1 : st1.frozen = false) (chosen : String)
    (hl : lookupKey st1.nets chosen = none) :
    ({ st1 with netHeap := st1.netHeap ++ [(⟨chosen, false, []⟩ : NetData)], nets := st1.nets ++ [(chosen, st1.netHeap.length)] } : St) = (addNet st1 chosen false).2 := by
  unfold addNet
  rw [if_neg (by rw [hfr1]; simp), if_neg (by rw [hl]; simp)]

theorem obtainNet_inv {st1 : St} (hInv1 : Inv st1) (hfr1 : st1.frozen = false) (chosen : String) :
    Inv (match lookupKey st1.nets chosen with
         | some nid0 => (nid0, st1)
         | none => (st1.netHeap.length, { st1 with netHeap := st1.netHeap ++ [(⟨chosen, false, []⟩ : NetData)], nets := st1.nets ++ [(chosen, st1.netHeap.length)] })).2 := by
  cases hl : lookupKey st1.nets chosen with
  | some nid0 => exact hInv1
  | none =>
    have := inv_addNet hInv1 chosen false
    rw [← obtainNet_eq_addNet hfr1 chosen hl] at this
    exact this

theorem obtainNet_reg (st1 : St) (chosen : String) :
    regNet (match lookupKey st1.nets chosen with
            | some nid0 => (nid0, st1)
            | none => (st1.netHeap.length, { st1 with netHeap := st1.netHeap ++ [(⟨chosen, false, []⟩ : NetData)], nets := st1.nets ++ [(chosen, st1.netHeap.length)] })).2
      (match lookupKey st1.nets chosen with
       | some nid0 => (nid0, st1)
       | none => (st1.netHeap.length, { st1 with netHeap := st1.netHeap ++ [(⟨chosen, false, []⟩ : NetData)], nets := st1.nets ++ [(chosen, st1.netHeap.length)] })).1 := by
  cases hl : lookupKey st1.nets chosen with
  | some nid0 => exact ⟨(chosen, nid0), lookupKey_mem hl, rfl⟩
  | none =>
    exact ⟨(chosen, st1.netHeap.length), List.mem_append.mpr (Or.inr (by simp)), rfl⟩

theorem inv_connectPins {st : St} (hInv : Inv st) (ca : CompRef) (pa : PinSel)
    (cb : CompRef) (pb : PinSel) (nn : Option String) (am : Bool) :
    Inv (connectPins st ca pa cb pb nn am).2 := by
  rcases hr : connectPins st ca pa cb pb nn am with ⟨r, st2⟩
  simp only [connectPins] at hr
  split at hr
  · cases hr
    exact hInv
  · rename_i hfr
    split at hr
    · cases hr
      exact hInv
    · rename_i a hA
      split at hr
      · cases hr
        exact hInv
      · rename_i b hB
        split at hr
        · cases hr
          exact hInv
        · rename_i posA hPA
          split at hr
          · cases hr
            exact hInv
          · rename_i posB hPBb
            have hAok := resolveComponent_ok hInv hA
            have hBok := resolveComponent_ok hInv hB
            have hposA := resolvePinPy_lt hPA
            have hposB := resolvePinPy_lt hPBb
            split at hr
            · -- both pins unconnected
              rename_i hNA hNB
              have hInvCS := chooseName_inv hInv nn
              have hfrCS : (match nn with
                  | some s => if s = "" then newAutoNetName st else (s, st)
                  | none => newAutoNetName st).2.frozen = false := by
                rw [chooseName_frozen]
                exact bool_eq_false hfr
              have hInvNS := obtainNet_inv hInvCS hfrCS (match nn with
                | some s => if s = "" then newAutoNetName st else (s, st)
                | none => newAutoNetName st).1
              have hregNS := obtainNet_reg (match nn with
                | some s => if s = "" then newAutoNetName st else (s, st)
                | none => newAutoNetName st).2 (match nn with
                | some s => if s = "" then newAutoNetName st else (s, st)
                | none => newAutoNetName st).1
              generalize hgen : (match nn with
                | some s => if s = "" then newAutoNetName st else (s, st)
                | none => newAutoNetName st) = cs at hr hInvNS hregNS
              generalize hgen2 : (match lookupKey cs.2.nets cs.1 with
                | some nid0 => (nid0, cs.2)
                | none => (cs.2.netHeap.length, { cs.2 with netHeap := cs.2.netHeap ++ [(⟨cs.1, false, []⟩ : NetData)], nets := cs.2.nets ++ [(cs.1, cs.2.netHeap.length)] })) = ns at hr hInvNS hregNS
              split at hr
              · rename_i e st3 heq
                cases hr
                have := inv_netConnect hInvNS hregNS a.cname (.idx (pinAt a posA).index)
                rw [heq] at this
                exact this
              · rename_i st3 heq
                have hInv3 : Inv st3 := by
                  have := inv_netConnect hInvNS hregNS a.cname (.idx (pinAt a posA).index)
                  rw [heq] at this
                  exact this
                have hreg3 : regNet st3 ns.1 := by
                  have := regNet_netConnect hregNS ns.1 a.cname (.idx (pinAt a posA).index)
                  rw [heq] at this
                  exact this
                split at hr
                · rename_i e st4 heq2
                  cases hr
                  have := inv_netConnect hInv3 hreg3 b.cname (.idx (pinAt b posB).index)
                  rw [heq2] at this
                  exact this
                · rename_i st4 heq2
                  cases hr
                  have := inv_netConnect hInv3 hreg3 b.cname (.idx (pinAt b posB).index)
                  rw [heq2] at this
                  exact this
            · -- pin A connected, pin B not
              rename_i na hNA hNB
              have hreg : regNet st na := pin_net_registered hInv hAok hposA hNA
              split at hr
              · rename_i e st3 heq
                cases hr
                have := inv_netConnect hInv hreg b.cname (.idx (pinAt b posB).index)
                rw [heq] at this
                exact this
              · rename_i st3 heq
                cases hr
                have := inv_netConnect hInv hreg b.cname (.idx (pinAt b posB).index)
                rw [heq] at this
                exact this
            · -- pin B connected, pin A not
              rename_i nb hNA hNB
              have hreg : regNet st nb := pin_net_registered hInv hBok hposB hNB
              split at hr
              · rename_i e st3 heq
                cases hr
                have := inv_netConnect hInv hreg a.cname (.idx (pinAt a posA).index)
                rw [heq] at this
                exact this
              · rename_i st3 heq
                cases hr
                have := inv_netConnect hInv hreg a.cname (.idx (pinAt a posA).index)
                rw [heq] at this
                exact this
            · -- both connected
              rename_i na nb hNA hNB
              have hregA : regNet st na := pin_net_registered hInv hAok hposA hNA
              have hregB : regNet st nb := pin_net_registered hInv hBok hposB hNB
              split at hr
              · cases hr
                exact hInv
              · split at hr
                · cases hr
                  exact hInv
                · split at hr
                  · rename_i e st3 heq
                    cases hr
                    have := inv_mergeNets hInv hregA hregB
                    rw [heq] at this
                    exact this
                  · rename_i st3 heq
                    cases hr
                    have := inv_mergeNets hInv hregA hregB
                    rw [heq] at this
                    exact this

/-! ## The reachability invariant -/

theorem inv_reachFresh {st : St} (h : ReachFresh st) : Inv st := by
  induction h with
  | init => decide
  | addNet nm g h ih => exact inv_addNet ih nm g
  | addComponent nm pns h ih => exact inv_addComponentOp ih nm pns
  | connect n c sel h ih => exact inv_schConnect ih n c sel
  | connectCreate n c sel h ih => exact inv_connectCreateNet ih n c sel
  | connectPins ca pa cb pb nn am h ih => exact inv_connectPins ih ca pa cb pb nn am
  | merge tid sid h hrt hrs ih => exact inv_mergeNets ih hrt hrs
  | freeze h ih => exact inv_freeze ih

theorem claimInv_of_inv {st : St} (hInv : Inv st) : ClaimInv st := by
  obtain ⟨⟨hRC, hRCnd⟩, ⟨hCW, hCWnd⟩, hNF, hCS, hPB⟩ := hInv
  refine ⟨?_, ?_, ?_⟩
  · intro p hp q hq e he f hf hef i hie hif
    obtain ⟨c1, hc1, hb1⟩ := ConnOk_elim (hNF p hp e he)
    obtain ⟨c2, hc2, hb2⟩ := ConnOk_elim (hNF q hq f hf)
    rw [← hef] at hc2
    rw [hc1] at hc2
    cases Option.some.inj hc2
    have h1 := (hb1 i hie).2
    have h2 := (hb2 i hif).2
    rw [h1] at h2
    exact Option.some.inj h2
  · intro q hq i hi
    right
    intro nid hmem
    exact (hPB q hq i hi nid hmem).2
  · intro p hp e he
    obtain ⟨c, hc, hb⟩ := ConnOk_elim (hNF p hp e he)
    refine ⟨by rw [hc]; rfl, ?_⟩
    intro idx hidx
    rw [hc]
    simp only [Option.getD_some]
    exact (hb idx hidx).2

/-! ## Claim C2 -/

/-- Claim C2 (counterexample): the lockstep invariant is not preserved by every
sequence of the listed operations as claimed.  Registering components `c1`,
`c2`, connecting nets `A` and `B`, merging `B` into `A` via
`connect_pins(..., allow_merge=True)`, and then re-registering the still-held
stale `B` object through `add_net` reaches a state in which `B`'s connections
list pins whose back-references point at `A`, violating exclusivity and both
lockstep directions. -/
theorem C2_counterexample : Reach exBad ∧ ¬ ClaimInv exBad :=
  ⟨Reach.addNetObj 1 (Reach.connectPins (.byName "c1") (.idx 0) (.byName "c1") (.idx 1) none true
      (Reach.connectPins (.byName "c1") (.idx 1) (.byName "c2") (.idx 1) (some "B") false
        (Reach.connectPins (.byName "c1") (.idx 0) (.byName "c2") (.idx 0) (some "A") false
          (Reach.addComponent "c2" ["q0", "q1"]
            (Reach.addComponent "c1" ["p0", "p1"] Reach.init))))),
   by decide⟩

/-- Claim C2 (amended): for every state reachable by any sequence of
`add_net` (with freshly constructed nets), `add_component`, `connect`,
`connect_create_net`, `connect_pins`, and the merge step on registered nets,
the claimed three-part invariant holds: at most one registered net references
a `(component, pin_index)` pair, every connected pin's net lists that pin,
and every listed pair points back at its net. -/
theorem C2_lockstep_invariant (st : St) (h : ReachFresh st) : ClaimInv st :=
  claimInv_of_inv (inv_reachFresh h)

/-- Witness for C2: the invariant holds in the concrete post-merge schematic
`exE`, reached by fresh-net operations only. -/
theorem C2_lockstep_invariant_witness : ClaimInv exE :=
  C2_lockstep_invariant exE
    (ReachFresh.connectPins (.byName "c1") (.idx 0) (.byName "c1") (.idx 1) none true
      (ReachFresh.connectPins (.byName "c1") (.idx 1) (.byName "c2") (.idx 1) (some "B") false
        (ReachFresh.connectPins (.byName "c1") (.idx 0) (.byName "c2") (.idx 0) (some "A") false
          (ReachFresh.addComponent "c2" ["q0", "q1"]
            (ReachFresh.addComponent "c1" ["p0", "p1"] ReachFresh.init)))))

theorem filter_filter_nil (p q : α → Bool) :
    ∀ l : List α, (∀ a ∈ l, q a = true → p a = false) →
      (l.filter p).filter q = [] := by
  intro l
  induction l with
  | nil => intro _; rfl
  | cons a l ih =>
    intro h
    by_cases hp : p a = true
    · rw [List.filter_cons_of_pos hp]
      by_cases hq : q a = true
      · exact absurd (h a (List.mem_cons_self a l) hq) (by rw [hp]; simp)
      · rw [List.filter_cons_of_neg hq]
        exact ih (fun b hb => h b (List.mem_cons_of_mem a hb))
    · rw [List.filter_cons_of_neg hp]
      exact ih (fun b hb => h b (List.mem_cons_of_mem a hb))

theorem starExp_inner (v : Vtx) (k : String) :
    ∀ (l : List Nat) (acc : List Incidence),
      l.foldl (fun a i => a ++ [(v, k, i)]) acc = acc ++ l.map (fun i => (v, k, i)) := by
  intro l
  induction l with
  | nil => intro acc; simp
  | cons i rest ih =>
    intro acc
    rw [List.foldl_cons, ih]
    simp

theorem starExp_mid (v : Vtx) :
    ∀ (es : List (String × List Nat)) (acc : List Incidence),
      es.foldl (fun a e => e.2.foldl (fun a2 i => a2 ++ [(v, e.1, i)]) a) acc =
        acc ++ es.flatMap (fun e => e.2.map (fun i => (v, e.1, i))) := by
  intro es
  induction es with
  | nil => intro acc; simp
  | cons e rest ih =>
    intro acc
    rw [List.foldl_cons, starExp_inner, ih]
    simp

theorem starExp_outer :
    ∀ (vs : List Vtx) (acc : List Incidence),
      vs.foldl (fun a v => v.connections.foldl
          (fun a2 e => e.2.foldl (fun a3 i => a3 ++ [(v, e.1, i)]) a2) a) acc =
        acc ++ vs.flatMap (fun v => v.connections.flatMap
          (fun e => e.2.map (fun i => (v, e.1, i)))) := by
  intro vs
  induction vs with
  | nil => intro acc; simp
  | cons v rest ih =>
    intro acc
    rw [List.foldl_cons, starExp_mid, ih]
    simp


/-! ## Claim C6 -/

theorem lookupVtx_eq_none_iff (nm : List (Vtx × List Nat)) (v : Vtx) :
    addCompNet.lookupVtx nm v = none ↔ v ∉ nm.map Prod.fst := by
  induction nm with
  | nil => simp [addCompNet.lookupVtx]
  | cons p rest ih =>
    rcases p with ⟨u, s⟩
    by_cases h : u = v
    · simp [addCompNet.lookupVtx, h]
    · simp [addCompNet.lookupVtx, h, ih, (show ¬ v = u from fun hx => h hx.symm)]

theorem lookupVtx_mem {nm : List (Vtx × List Nat)} {v : Vtx} {s : List Nat}
    (h : addCompNet.lookupVtx nm v = some s) : (v, s) ∈ nm := by
  induction nm with
  | nil => simp [addCompNet.lookupVtx] at h
  | cons p rest ih =>
    rcases p with ⟨u, t⟩
    rw [addCompNet.lookupVtx] at h
    split at h
    · cases h
      rename_i hu
      subst hu
      exact List.mem_cons_self _ _
    · exact List.mem_cons_of_mem _ (ih h)

theorem setVtx_spec (nm : List (Vtx × List Nat)) (v : Vtx) (ps : List Nat) :
    addCompNet.setVtx nm v ps =
      match addCompNet.lookupVtx nm v with
      | some s => setVtxAbs nm v (unionSet s ps)
      | none => nm := by
  induction nm with
  | nil => rfl
  | cons p rest ih =>
    rcases p with ⟨u, s⟩
    by_cases h : u = v
    · simp [addCompNet.setVtx, addCompNet.lookupVtx, h, setVtxAbs]
    · simp only [addCompNet.setVtx, addCompNet.lookupVtx, if_neg h, ih]
      cases addCompNet.lookupVtx rest v with
      | none => rfl
      | some s2 => simp [setVtxAbs, h]

theorem keys_setVtxAbs (nm : List (Vtx × List Nat)) (v : Vtx) (val : List Nat) :
    (setVtxAbs nm v val).map Prod.fst = nm.map Prod.fst := by
  induction nm with
  | nil => rfl
  | cons p rest ih =>
    rcases p with ⟨u, s⟩
    by_cases h : u = v
    · simp [setVtxAbs, h]
    · simp [setVtxAbs, h, ih]

theorem lookupVtx_setVtxAbs_self {nm : List (Vtx × List Nat)} {v : Vtx} {s : List Nat}
    (h : addCompNet.lookupVtx nm v = some s) (val : List Nat) :
    addCompNet.lookupVtx (setVtxAbs nm v val) v = some val := by
  induction nm with
  | nil => simp [addCompNet.lookupVtx] at h
  | cons p rest ih =>
    rcases p with ⟨u, t⟩
    by_cases hu : u = v
    · simp [setVtxAbs, addCompNet.lookupVtx, hu]
    · rw [addCompNet.lookupVtx] at h
      rw [if_neg hu] at h
      simp [setVtxAbs, addCompNet.lookupVtx, hu, ih h]

theorem setVtxAbs_compose (nm : List (Vtx × List Nat)) (v : Vtx) (v1 v2 : List Nat) :
    setVtxAbs (setVtxAbs nm v v1) v v2 = setVtxAbs nm v v2 := by
  induction nm with
  | nil => rfl
  | cons p rest ih =>
    rcases p with ⟨u, s⟩
    by_cases h : u = v
    · simp [setVtxAbs, h]
    · simp [setVtxAbs, h, ih]

theorem lookupVtx_append_right {nm : List (Vtx × List Nat)} {v : Vtx}
    (h : addCompNet.lookupVtx nm v = none) (l2 : List (Vtx × List Nat)) :
    addCompNet.lookupVtx (nm ++ l2) v = addCompNet.lookupVtx l2 v := by
  induction nm with
  | nil => rfl
  | cons p rest ih =>
    rcases p with ⟨u, s⟩
    rw [addCompNet.lookupVtx] at h
    split at h
    · cases h
    · rename_i hu
      rw [List.cons_append, addCompNet.lookupVtx, if_neg hu]
      exact ih h

theorem setVtxAbs_append_right {nm : List (Vtx × List Nat)} {v : Vtx}
    (h : addCompNet.lookupVtx nm v = none) (l2 : List (Vtx × List Nat)) (val : List Nat) :
    setVtxAbs (nm ++ l2) v val = nm ++ setVtxAbs l2 v val := by
  induction nm with
  | nil => rfl
  | cons p rest ih =>
    rcases p with ⟨u, s⟩
    rw [addCompNet.lookupVtx] at h
    split at h
    · cases h
    · rename_i hu
      rw [List.cons_append, setVtxAbs, if_neg hu, List.cons_append, ih h]

theorem mem_setVtxAbs {nm : List (Vtx × List Nat)} {v : Vtx} {val : List Nat}
    (hnd : (nm.map Prod.fst).Nodup) {p : Vtx × List Nat} (hp : p ∈ setVtxAbs nm v val) :
    p = (v, val) ∨ (p ∈ nm ∧ p.1 ≠ v) := by
  induction nm with
  | nil => simp [setVtxAbs] at hp
  | cons q rest ih =>
    rcases q with ⟨u, s⟩
    simp only [List.map_cons, List.nodup_cons] at hnd
    by_cases h : u = v
    · subst h
      rw [setVtxAbs, if_pos rfl] at hp
      rcases List.mem_cons.mp hp with h1 | h1
      · exact Or.inl h1
      · right
        refine ⟨List.mem_cons_of_mem _ h1, ?_⟩
        intro hpv
        exact hnd.1 (hpv ▸ List.mem_map_of_mem Prod.fst h1)
    · rw [setVtxAbs, if_neg h] at hp
      rcases List.mem_cons.mp hp with h1 | h1
      · subst h1
        exact Or.inr ⟨List.mem_cons_self _ _, h⟩
      · rcases ih hnd.2 h1 with h2 | h2
        · exact Or.inl h2
        · exact Or.inr ⟨List.mem_cons_of_mem _ h2.1, h2.2⟩

theorem pinsOfIn_cons (e : String × List Nat) (es : List (String × List Nat))
    (cn : String) (s : List Nat) :
    pinsOfIn (e :: es) cn s =
      if e.1 = cn then pinsOfIn es cn (unionSet s e.2) else pinsOfIn es cn s := by
  by_cases h : e.1 = cn <;> simp [pinsOfIn, h]

theorem pinsOfIn_no_match {es : List (String × List Nat)} {cn : String}
    (h : es.any (fun e => e.1 = cn) = false) (s : List Nat) : pinsOfIn es cn s = s := by
  induction es generalizing s with
  | nil => rfl
  | cons e rest ih =>
    simp only [List.any_cons, Bool.or_eq_false_iff] at h
    rw [pinsOfIn_cons, if_neg (by simpa using h.1)]
    exact ih h.2 s

theorem addCompNet_lookup (m : List (String × List (Vtx × List Nat))) (cn : String)
    (v : Vtx) (ps : List Nat) (k : String) :
    lookupKey (addCompNet m cn v ps) k =
      if k = cn then
        some (match lookupKey m cn with
          | none => [(v, unionSet [] ps)]
          | some nm =>
            match addCompNet.lookupVtx nm v with
            | some s => setVtxAbs nm v (unionSet s ps)
            | none => nm ++ [(v, unionSet [] ps)])
      else lookupKey m k := by
  induction m with
  | nil =>
    by_cases h : k = cn
    · simp [addCompNet, lookupKey, h]
    · simp [addCompNet, lookupKey, h, (show ¬ cn = k from fun hx => h hx.symm)]
  | cons q rest ih =>
    rcases q with ⟨k2, nm2⟩
    by_cases h2 : k2 = cn
    · subst h2
      rw [addCompNet, if_pos rfl]
      by_cases hk : k = k2
      · subst hk
        rw [lookupKey_cons, if_pos rfl, lookupKey_cons, if_pos rfl, if_pos rfl, setVtx_spec]
        cases hl : addCompNet.lookupVtx nm2 v with
        | none => simp [hl]
        | some s => simp [hl]
      · rw [if_neg hk, lookupKey_cons, if_neg (fun h => hk h.symm), lookupKey_cons,
          if_neg (fun h => hk h.symm)]
    · rw [addCompNet, if_neg h2]
      by_cases hk : k = k2
      · have hkc : ¬ k = cn := fun h => h2 (hk.symm.trans h)
        rw [lookupKey_cons, if_pos (by rw [hk]), if_neg hkc, lookupKey_cons, if_pos (by rw [hk])]
      · rw [lookupKey_cons, if_neg (fun h => hk h.symm), ih]
        rw [show lookupKey ((k2, nm2) :: rest) cn = lookupKey rest cn from by
          rw [lookupKey_cons, if_neg h2]]
        rw [show lookupKey ((k2, nm2) :: rest) k = lookupKey rest k from by
          rw [lookupKey_cons, if_neg (fun h => hk h.symm)]]

theorem touchedNets_append (ps : List Vtx) (v : Vtx) (cn : String) :
    touchedNets (ps ++ [v]) cn =
      if v.connections.any (fun e => e.1 = cn) ∧ v ∉ touchedNets ps cn then
        touchedNets ps cn ++ [v]
      else touchedNets ps cn := by
  unfold touchedNets
  rw [List.foldl_append]
  rfl

theorem fullPins_append (ps : List Vtx) (u0 : Vtx) (cn : String) (w : Vtx) :
    fullPins (ps ++ [u0]) cn w =
      if u0 = w then pinsOfIn u0.connections cn (fullPins ps cn w) else fullPins ps cn w := by
  unfold fullPins pinsOfIn
  rw [List.foldl_append]
  simp only [List.foldl_cons, List.foldl_nil]

theorem mem_touchedNets_append (ps : List Vtx) (v : Vtx) (cn : String) {w : Vtx}
    (h : w ∈ touchedNets ps cn) : w ∈ touchedNets (ps ++ [v]) cn := by
  rw [touchedNets_append]
  split
  · exact List.mem_append.mpr (Or.inl h)
  · exact h

theorem touchedNets_nodup (ps : List Vtx) (cn : String) : (touchedNets ps cn).Nodup := by
  induction ps using List.reverseRecOn with
  | nil => exact List.nodup_nil
  | append_singleton ps v ih =>
    rw [touchedNets_append]
    split
    · rename_i h
      exact List.Nodup.append ih (List.nodup_singleton v) (by
        intro x hx hy
        simp only [List.mem_singleton] at hy
        subst hy
        exact h.2 hx)
    · exact ih

theorem fullPins_of_not_touched {ps : List Vtx} {cn : String} {w : Vtx}
    (h : w ∉ touchedNets ps cn) : fullPins ps cn w = [] := by
  induction ps using List.reverseRecOn with
  | nil => rfl
  | append_singleton ps v ih =>
    rw [touchedNets_append] at h
    rw [fullPins_append]
    by_cases hv : v = w
    · subst hv
      by_cases hc : v.connections.any (fun e => e.1 = cn) = true
      · exfalso
        split at h
        · exact h (List.mem_append.mpr (Or.inr (List.mem_singleton_self v)))
        · rename_i hcond
          rw [not_and_or] at hcond
          rcases hcond with h1 | h1
          · exact h1 hc
          · rw [not_not] at h1
            exact h h1
      · rw [if_pos rfl, pinsOfIn_no_match (Bool.eq_false_iff.mpr hc)]
        apply ih
        intro hmem
        split at h
        · exact h (List.mem_append.mpr (Or.inl hmem))
        · exact h hmem
    · rw [if_neg hv]
      apply ih
      intro hmem
      split at h
      · exact h (List.mem_append.mpr (Or.inl hmem))
      · exact h hmem

theorem innerFold_lookup (v : Vtx) :
    ∀ (es : List (String × List Nat)) (m : List (String × List (Vtx × List Nat))) (cn : String),
      lookupKey (es.foldl (fun m2 e => addCompNet m2 e.1 v e.2) m) cn =
        if es.any (fun e => e.1 = cn) then
          some (match lookupKey m cn with
            | none => [(v, pinsOfIn es cn [])]
            | some nm =>
              match addCompNet.lookupVtx nm v with
              | some s => setVtxAbs nm v (pinsOfIn es cn s)
              | none => nm ++ [(v, pinsOfIn es cn [])])
        else lookupKey m cn := by
  intro es
  induction es with
  | nil =>
    intro m cn
    simp only [List.foldl_nil, List.any_nil, Bool.false_eq_true, if_false]
  | cons e rest ih =>
    intro m cn
    rw [List.foldl_cons, ih (addCompNet m e.1 v e.2) cn]
    by_cases he : e.1 = cn
    · have hpi : ∀ s, pinsOfIn (e :: rest) cn s = pinsOfIn rest cn (unionSet s e.2) :=
        fun s => by rw [pinsOfIn_cons, if_pos he]
      have hany : (e :: rest).any (fun x => x.1 = cn) = true := by simp [he]
      rw [addCompNet_lookup, if_pos he.symm, hany, if_pos rfl, he]
      simp only [hpi]
      cases hm : lookupKey m cn with
      | none =>
        dsimp only
        have hlv : addCompNet.lookupVtx [(v, unionSet [] e.2)] v = some (unionSet [] e.2) := by
          simp [addCompNet.lookupVtx]
        rw [hlv]
        dsimp only
        by_cases hra : rest.any (fun x => x.1 = cn) = true
        · rw [if_pos hra]
          simp [setVtxAbs]
        · rw [if_neg hra, pinsOfIn_no_match (Bool.eq_false_iff.mpr hra)]
      | some nm =>
        dsimp only
        cases hlv : addCompNet.lookupVtx nm v with
        | some s =>
          dsimp only
          rw [lookupVtx_setVtxAbs_self hlv (unionSet s e.2)]
          dsimp only
          by_cases hra : rest.any (fun x => x.1 = cn) = true
          · rw [if_pos hra, setVtxAbs_compose]
          · rw [if_neg hra, pinsOfIn_no_match (Bool.eq_false_iff.mpr hra)]
        | none =>
          dsimp only
          have hlv2 : addCompNet.lookupVtx (nm ++ [(v, unionSet [] e.2)]) v =
              some (unionSet [] e.2) := by
            rw [lookupVtx_append_right hlv]
            simp [addCompNet.lookupVtx]
          rw [hlv2]
          dsimp only
          by_cases hra : rest.any (fun x => x.1 = cn) = true
          · rw [if_pos hra, setVtxAbs_append_right hlv]
            simp [setVtxAbs]
          · rw [if_neg hra, pinsOfIn_no_match (Bool.eq_false_iff.mpr hra)]
    · have hpi : ∀ s, pinsOfIn (e :: rest) cn s = pinsOfIn rest cn s :=
        fun s => by rw [pinsOfIn_cons, if_neg he]
      have hacn : lookupKey (addCompNet m e.1 v e.2) cn = lookupKey m cn := by
        rw [addCompNet_lookup, if_neg (fun h => he h.symm)]
      have hany : (e :: rest).any (fun x => x.1 = cn) = rest.any (fun x => x.1 = cn) := by
        simp [he]
      rw [hacn, hany]
      simp only [hpi]

theorem compToNets_char (vs : List Vtx) (cn : String) :
    (lookupKey (compToNets vs) cn = none → touchedNets vs cn = []) ∧
    (∀ nm, lookupKey (compToNets vs) cn = some nm →
      nm.map Prod.fst = touchedNets vs cn ∧ ∀ p ∈ nm, p.2 = fullPins vs cn p.1) := by
  induction vs using List.reverseRecOn with
  | nil =>
    exact ⟨fun _ => rfl, fun nm h => by simp [compToNets, lookupKey] at h⟩
  | append_singleton ps v ih =>
    have hstep : compToNets (ps ++ [v]) =
        v.connections.foldl (fun m2 e => addCompNet m2 e.1 v e.2) (compToNets ps) := by
      unfold compToNets
      rw [List.foldl_append]
      simp only [List.foldl_cons, List.foldl_nil]
    rw [hstep, innerFold_lookup]
    by_cases hc : v.connections.any (fun e => e.1 = cn) = true
    · rw [if_pos hc]
      cases hm : lookupKey (compToNets ps) cn with
      | none =>
        dsimp only
        have htn : touchedNets ps cn = [] := ih.1 hm
        constructor
        · intro h
          simp at h
        · intro nm hnm
          injection hnm with hnm
          subst hnm
          constructor
          · rw [touchedNets_append, htn, if_pos ⟨hc, List.not_mem_nil v⟩]
            simp
          · intro p hp
            simp only [List.mem_singleton] at hp
            subst hp
            rw [fullPins_append, if_pos rfl,
              fullPins_of_not_touched (htn ▸ List.not_mem_nil v)]
      | some nm0 =>
        dsimp only
        obtain ⟨hkeys, hvals⟩ := ih.2 nm0 hm
        cases hlv : addCompNet.lookupVtx nm0 v with
        | some s =>
          dsimp only
          have hvmem : v ∈ touchedNets ps cn :=
            hkeys ▸ List.mem_map_of_mem Prod.fst (lookupVtx_mem hlv)
          constructor
          · intro h
            simp at h
          · intro nm hnm
            injection hnm with hnm
            subst hnm
            have hs : s = fullPins ps cn v := hvals (v, s) (lookupVtx_mem hlv)
            have hnodup : (nm0.map Prod.fst).Nodup := by
              rw [hkeys]
              exact touchedNets_nodup ps cn
            constructor
            · rw [keys_setVtxAbs, hkeys, touchedNets_append,
                if_neg (fun hcond => hcond.2 hvmem)]
            · intro p hp
              rcases mem_setVtxAbs hnodup hp with h1 | ⟨h1, h2⟩
              · subst h1
                rw [fullPins_append, if_pos rfl, ← hs]
              · rw [fullPins_append, if_neg (fun h => h2 h.symm)]
                exact hvals p h1
        | none =>
          dsimp only
          have hvnot : v ∉ touchedNets ps cn := by
            rw [← hkeys]
            exact (lookupVtx_eq_none_iff nm0 v).mp hlv
          constructor
          · intro h
            simp at h
          · intro nm hnm
            injection hnm with hnm
            subst hnm
            constructor
            · rw [List.map_append, hkeys, touchedNets_append, if_pos ⟨hc, hvnot⟩]
              simp
            · intro p hp
              rcases List.mem_append.mp hp with h1 | h1
              · rw [fullPins_append, if_neg (fun h => hvnot (by
                  rw [h]
                  rw [← hkeys]
                  exact List.mem_map_of_mem Prod.fst h1))]
                exact hvals p h1
              · simp only [List.mem_singleton] at h1
                subst h1
                rw [fullPins_append, if_pos rfl, fullPins_of_not_touched hvnot]
    · rw [if_neg hc]
      have htn : touchedNets (ps ++ [v]) cn = touchedNets ps cn := by
        rw [touchedNets_append, if_neg (fun hcond => hc hcond.1)]
      constructor
      · intro h
        rw [htn]
        exact ih.1 h
      · intro nm hnm
        obtain ⟨hkeys, hvals⟩ := ih.2 nm hnm
        refine ⟨by rw [htn]; exact hkeys, ?_⟩
        intro p hp
        rw [fullPins_append]
        by_cases hv : v = p.1
        · rw [if_pos hv, pinsOfIn_no_match (Bool.eq_false_iff.mpr hc)]
          exact hvals p hp
        · rw [if_neg hv]
          exact hvals p hp

theorem edges_fold (l : List (String × List (Vtx × List Nat))) :
    ∀ acc : List NetEdge,
      l.foldl (fun es e => es ++ if e.2.length < 2 then [] else edgesOfComp e.1 e.2) acc =
        acc ++ l.flatMap (fun e => if e.2.length < 2 then [] else edgesOfComp e.1 e.2) := by
  induction l with
  | nil => intro acc; simp
  | cons e rest ih =>
    intro acc
    rw [List.foldl_cons, ih]
    simp

theorem pairsOf_length : ∀ l : List α, (pairsOf l).length = Nat.choose l.length 2 := by
  intro l
  induction l with
  | nil => rfl
  | cons x xs ih =>
    simp only [pairsOf, List.length_append, List.length_map, ih, List.length_cons,
      Nat.choose_succ_succ, Nat.choose_one_right]

/-- Claim C6: in the net-projected multigraph, each component contributes one
edge per unordered pair of the distinct nets it touches — none when it
touches fewer than two — so exactly C(k,2) edges for k touched nets, listed
in visit order; every edge carries the component name and, per endpoint net,
the complete set of that component's pin indices on that net. -/
theorem C6_net_multigraph (vs : List Vtx) :
    buildNetMultigraphEdges vs =
      (compToNets vs).flatMap (fun e => if e.2.length < 2 then [] else edgesOfComp e.1 e.2) ∧
    (∀ cn nm, lookupKey (compToNets vs) cn = some nm →
      nm.map Prod.fst = touchedNets vs cn ∧
      (touchedNets vs cn).Nodup ∧
      (∀ p ∈ nm, p.2 = fullPins vs cn p.1) ∧
      (edgesOfComp cn nm).length = Nat.choose nm.length 2 ∧
      edgesOfComp cn nm = (pairsOf nm).map (fun ab =>
        ⟨ab.1.1.name, ab.2.1.name, cn, (ab.1.1.name, ab.2.1.name), ab.1.2, ab.2.2⟩)) := by
  refine ⟨?_, ?_⟩
  · unfold buildNetMultigraphEdges
    rw [edges_fold]
    simp
  · intro cn nm hnm
    obtain ⟨hkeys, hvals⟩ := (compToNets_char vs cn).2 nm hnm
    refine ⟨hkeys, touchedNets_nodup vs cn, hvals, ?_, rfl⟩
    unfold edgesOfComp
    rw [List.length_map, pairsOf_length]

/-- Witness for C6: over the two nets of `exD`, component `c1` touches nets
`A` and `B` with complete pin sets `[0]` and `[1]`. -/
theorem C6_net_multigraph_witness :
    lookupKey (compToNets [vtxOfNet exD 0, vtxOfNet exD 1]) "c1" =
      some [(⟨"A", false, [("c1", [0]), ("c2", [0])]⟩, [0]),
            (⟨"B", false, [("c1", [1]), ("c2", [1])]⟩, [1])] ∧
    ([(⟨"A", false, [("c1", [0]), ("c2", [0])]⟩, ([0] : List Nat)),
      (⟨"B", false, [("c1", [1]), ("c2", [1])]⟩, [1])] : List (Vtx × List Nat)).map Prod.fst =
      touchedNets [vtxOfNet exD 0, vtxOfNet exD 1] "c1" :=
  ⟨by decide,
   ((C6_net_multigraph [vtxOfNet exD 0, vtxOfNet exD 1]).2 "c1"
     [(⟨"A", false, [("c1", [0]), ("c2", [0])]⟩, [0]),
      (⟨"B", false, [("c1", [1]), ("c2", [1])]⟩, [1])] (by decide)).1⟩


/-! ## Claim C4 -/

theorem decChars_lt {n : Nat} (h : n < 10) : decChars n = [Nat.digitChar n] := by
  rw [decChars, if_pos h]

theorem decChars_ge {n : Nat} (h : ¬ n < 10) :
    decChars n = decChars (n / 10) ++ [Nat.digitChar (n % 10)] := by
  conv_lhs => rw [decChars]
  rw [if_neg h]

theorem toDigitsCore_eq (fuel : Nat) :
    ∀ n ds, n < fuel → Nat.toDigitsCore 10 fuel n ds = decChars n ++ ds := by
  induction fuel with
  | zero => intro n ds h; omega
  | succ fuel ih =>
    intro n ds h
    rw [Nat.toDigitsCore]
    by_cases h0 : n / 10 = 0
    · have hn : n < 10 := by omega
      simp only [h0, if_pos rfl]
      rw [decChars_lt hn, Nat.mod_eq_of_lt hn]
      rfl
    · have hn : ¬ n < 10 := by omega
      rw [if_neg h0]
      have hlt : n / 10 < fuel := by omega
      rw [ih (n / 10) _ hlt, decChars_ge hn]
      simp

theorem toDigits_eq (n : Nat) : Nat.toDigits 10 n = decChars n := by
  rw [Nat.toDigits, toDigitsCore_eq (n + 1) n [] (Nat.lt_succ_self n)]
  simp

theorem decChars_ne_nil (n : Nat) : decChars n ≠ [] := by
  by_cases h : n < 10
  · rw [decChars_lt h]
    simp
  · rw [decChars_ge h]
    simp

theorem digitChar_inj {a b : Nat} (ha : a < 10) (hb : b < 10)
    (h : Nat.digitChar a = Nat.digitChar b) : a = b := by
  interval_cases a <;> interval_cases b <;> first | rfl | (exfalso; revert h; decide)

theorem decChars_inj : ∀ a b : Nat, decChars a = decChars b → a = b := by
  intro a
  induction a using Nat.strong_induction_on with
  | _ a ih =>
    intro b h
    by_cases ha : a < 10
    · by_cases hb : b < 10
      · rw [decChars_lt ha, decChars_lt hb] at h
        exact digitChar_inj ha hb (by simpa using h)
      · rw [decChars_lt ha, decChars_ge hb] at h
        have hlen := congrArg List.length h
        simp [List.length_append] at hlen
        exact absurd hlen (decChars_ne_nil (b / 10))
    · by_cases hb : b < 10
      · rw [decChars_ge ha, decChars_lt hb] at h
        have hlen := congrArg List.length h
        simp [List.length_append] at hlen
        exact absurd hlen (decChars_ne_nil (a / 10))
      · rw [decChars_ge ha, decChars_ge hb] at h
        have hinj := List.append_inj h (by
          have hlen := congrArg List.length h
          simp [List.length_append] at hlen
          omega)
        have h1 : a / 10 = b / 10 :=
          ih (a / 10) (Nat.div_lt_self (by omega) (by omega)) (b / 10) hinj.1
        have h2 : a % 10 = b % 10 := by
          have h3 := hinj.2
          simp only [List.cons.injEq, and_true] at h3
          exact digitChar_inj (Nat.mod_lt a (by omega)) (Nat.mod_lt b (by omega)) h3
        omega

theorem natRepr_inj {a b : Nat} (h : Nat.repr a = Nat.repr b) : a = b := by
  apply decChars_inj
  rw [← toDigits_eq, ← toDigits_eq]
  have h2 := congrArg String.data h
  simpa [Nat.repr, List.asString] using h2

theorem autoNameStr_inj {a b : Nat} (h : autoNameStr a = autoNameStr b) : a = b := by
  apply natRepr_inj
  have h2 := congrArg String.data h
  simp only [autoNameStr] at h2
  rw [String.data_append, String.data_append] at h2
  apply String.ext
  exact List.append_cancel_left h2

theorem resolvePinStrict_idx (c : Component) (pos : Nat) (h : pos < c.pins.length) :
    resolvePinStrict c (.idx (pos : Int)) = .ok pos := by
  unfold resolvePinStrict
  dsimp only
  rw [if_pos ⟨by positivity, by exact_mod_cast h⟩]
  simp

theorem netConnect_succ {st2 : St} {nid : Nat} {cn : String} {c : Component} {pos : Nat}
    (hc : compAt? st2 cn = some c) (hpos : pos < c.pins.length)
    (hidx : (pinAt c pos).index = pos) (hnet : (pinAt c pos).net = none) :
    netConnect st2 nid cn (.idx (pos : Int)) =
      (none, updatePinNet (addConn st2 nid cn pos) cn pos (some nid)) := by
  simp only [netConnect, hc, resolvePinStrict_idx c pos hpos, hnet, hidx]

/-- Claim C4 (counterexample): the auto-generated name is not always fresh.
In `exSq` a net named `N$1` was registered by hand; the first auto-named
`connect_pins` then reuses that pre-registered net instead of creating a
fresh one, so the chosen name was already in the net registry. -/
theorem C4_counterexample :
    exSq.nets = [("N$1", 0)] ∧
    (connectPins exSq (.byName "c1") (.idx 0) (.byName "c2") (.idx 0) none false).1 = .ok 0 ∧
    (connectPins exSq (.byName "c1") (.idx 0) (.byName "c2") (.idx 0) none false).2.nets =
      exSq.nets ∧
    (connectPins exSq (.byName "c1") (.idx 0) (.byName "c2") (.idx 0)
      none false).2.netHeap.length = exSq.netHeap.length := by
  decide

/-- Claim C4 (amended): when both resolved pins are unconnected, no net name
is given and the next auto name `N$(counter+1)` is not already registered,
`connect_pins` registers a brand-new net under that auto name, increments the
counter, attaches both pins to the new net, and the auto name of a subsequent
such call necessarily differs. -/
theorem C4_fresh_auto_net_amended (st : St) (ca cb : CompRef) (pa pb : PinSel) (am : Bool)
    (a b : Component) (posA posB : Nat) (hInv : Inv st)
    (hfr : st.frozen = false)
    (hA : resolveComponent st ca = .ok a) (hB : resolveComponent st cb = .ok b)
    (hpa : resolvePinPy a pa = .ok posA) (hpb : resolvePinPy b pb = .ok posB)
    (hnA : (pinAt a posA).net = none) (hnB : (pinAt b posB).net = none)
    (hfresh : lookupKey st.nets (autoNameStr (st.anon_net_counter + 1)) = none)
    (hdiff : ¬ (a.cname = b.cname ∧ posA = posB)) :
    (connectPins st ca pa cb pb none am).1 = .ok st.netHeap.length ∧
    (connectPins st ca pa cb pb none am).2.nets =
      st.nets ++ [(autoNameStr (st.anon_net_counter + 1), st.netHeap.length)] ∧
    (connectPins st ca pa cb pb none am).2.anon_net_counter = st.anon_net_counter + 1 ∧
    (∃ a2, compAt? (connectPins st ca pa cb pb none am).2 a.cname = some a2 ∧
      (pinAt a2 posA).net = some st.netHeap.length) ∧
    (∃ b2, compAt? (connectPins st ca pa cb pb none am).2 b.cname = some b2 ∧
      (pinAt b2 posB).net = some st.netHeap.length) ∧
    autoNameStr ((connectPins st ca pa cb pb none am).2.anon_net_counter + 1) ≠
      autoNameStr (st.anon_net_counter + 1) := by
  have hcA : compAt? st a.cname = some a := resolveComponent_ok hInv hA
  have hcB : compAt? st b.cname = some b := resolveComponent_ok hInv hB
  have hlenA : posA < a.pins.length := resolvePinPy_lt hpa
  have hlenB : posB < b.pins.length := resolvePinPy_lt hpb
  have hidxA : (pinAt a posA).index = posA :=
    (hInv.2.1.1 (a.cname, a) (lookupKey_mem hcA)).2.2.1 posA (List.mem_range.mpr hlenA)
  have hidxB : (pinAt b posB).index = posB :=
    (hInv.2.1.1 (b.cname, b) (lookupKey_mem hcB)).2.2.1 posB (List.mem_range.mpr hlenB)
  rcases hr : connectPins st ca pa cb pb none am with ⟨r, st2⟩
  simp only [connectPins] at hr
  rw [hfr] at hr
  simp only [Bool.false_eq_true, if_false, hA, hB, hpa, hpb, hnA, hnB] at hr
  simp only [newAutoNetName, hfresh] at hr
  generalize hNID : st.netHeap.length = nid at hr ⊢
  generalize hSTN : ({ netHeap := st.netHeap ++ [{ name := autoNameStr (st.anon_net_counter + 1), is_ground := false, connections := [] }], nets := st.nets ++ [(autoNameStr (st.anon_net_counter + 1), nid)], components := st.components, frozen := st.frozen, anon_net_counter := st.anon_net_counter + 1 } : St) = stN at hr
  have hcomps : stN.components = st.components := by rw [← hSTN]
  have hnetsN : stN.nets = st.nets ++ [(autoNameStr (st.anon_net_counter + 1), nid)] := by
    rw [← hSTN]
  have hcntN : stN.anon_net_counter = st.anon_net_counter + 1 := by rw [← hSTN]
  have hcAN : compAt? stN a.cname = some a := by unfold compAt?; rw [hcomps]; exact hcA
  have hcBN : compAt? stN b.cname = some b := by unfold compAt?; rw [hcomps]; exact hcB
  rw [hidxA, hidxB, netConnect_succ hcAN hlenA hidxA hnA] at hr
  dsimp only at hr
  by_cases hab : b.cname = a.cname
  · have hba : a = b := by
      rw [hab] at hcB
      rw [hcA] at hcB
      exact Option.some.inj hcB
    subst hba
    have hne : posA ≠ posB := fun h => hdiff ⟨rfl, h⟩
    have hcA3 : compAt? (updatePinNet (addConn stN nid a.cname posA) a.cname posA (some nid)) a.cname = some { a with pins := modifyAt a.pins posA (fun p => { p with net := some nid }) } := by
      rw [compAt?_updatePinNet, if_pos rfl, compAt?_addConn, hcAN]
      rfl
    have hpin2 : pinAt { a with pins := modifyAt a.pins posA (fun p => { p with net := some nid }) } posB = pinAt a posB := by
      rw [pinAt_updComp a posA posB (some nid) hlenB, if_neg (Ne.symm hne)]
    have hpos2 : posB < ({ a with pins := modifyAt a.pins posA (fun p => { p with net := some nid }) } : Component).pins.length := by
      dsimp only
      rw [length_modifyAt]
      exact hlenB
    rw [netConnect_succ hcA3 hpos2 (by rw [hpin2]; exact hidxB) (by rw [hpin2]; exact hnB)] at hr
    dsimp only at hr
    injection hr with h1 h2
    subst h1
    subst h2
    have hcF : compAt? (updatePinNet (addConn (updatePinNet (addConn stN nid a.cname posA) a.cname posA (some nid)) nid a.cname posB) a.cname posB (some nid)) a.cname = some { a with pins := modifyAt (modifyAt a.pins posA (fun p => { p with net := some nid })) posB (fun p => { p with net := some nid }) } := by
      rw [compAt?_updatePinNet, if_pos rfl, compAt?_addConn, hcA3]
      rfl
    refine ⟨rfl, hnetsN, hcntN, ⟨_, hcF, ?_⟩, ⟨_, hcF, ?_⟩, ?_⟩
    · show ((modifyAt (modifyAt a.pins posA (fun p => { p with net := some nid })) posB (fun p => { p with net := some nid })).getD posA default).net = some nid
      rw [getD_modifyAt_ne _ _ hne, getD_modifyAt_self _ _ hlenA]
    · show ((modifyAt (modifyAt a.pins posA (fun p => { p with net := some nid })) posB (fun p => { p with net := some nid })).getD posB default).net = some nid
      rw [getD_modifyAt_self _ _ (by rw [length_modifyAt]; exact hlenB)]
    · intro heq
      dsimp only at heq
      have h3 := autoNameStr_inj heq
      have h5 : (updatePinNet (addConn (updatePinNet (addConn stN nid a.cname posA) a.cname posA (some nid)) nid a.cname posB) a.cname posB (some nid)).anon_net_counter = st.anon_net_counter + 1 := hcntN
      omega
  · have hcB3 : compAt? (updatePinNet (addConn stN nid a.cname posA) a.cname posA (some nid)) b.cname = some b := by
      rw [compAt?_updatePinNet, if_neg hab, compAt?_addConn]
      exact hcBN
    rw [netConnect_succ hcB3 hlenB hidxB hnB] at hr
    dsimp only at hr
    injection hr with h1 h2
    subst h1
    subst h2
    have hcFb : compAt? (updatePinNet (addConn (updatePinNet (addConn stN nid a.cname posA) a.cname posA (some nid)) nid b.cname posB) b.cname posB (some nid)) b.cname = some { b with pins := modifyAt b.pins posB (fun p => { p with net := some nid }) } := by
      rw [compAt?_updatePinNet, if_pos rfl, compAt?_addConn, hcB3]
      rfl
    have hcFa : compAt? (updatePinNet (addConn (updatePinNet (addConn stN nid a.cname posA) a.cname posA (some nid)) nid b.cname posB) b.cname posB (some nid)) a.cname = some { a with pins := modifyAt a.pins posA (fun p => { p with net := some nid }) } := by
      rw [compAt?_updatePinNet, if_neg (fun h => hab h.symm), compAt?_addConn,
        compAt?_updatePinNet, if_pos rfl, compAt?_addConn, hcAN]
      rfl
    refine ⟨rfl, hnetsN, hcntN, ⟨_, hcFa, ?_⟩, ⟨_, hcFb, ?_⟩, ?_⟩
    · show ((modifyAt a.pins posA (fun p => { p with net := some nid })).getD posA default).net = some nid
      rw [getD_modifyAt_self _ _ hlenA]
    · show ((modifyAt b.pins posB (fun p => { p with net := some nid })).getD posB default).net = some nid
      rw [getD_modifyAt_self _ _ hlenB]
    · intro heq
      dsimp only at heq
      have h3 := autoNameStr_inj heq
      have h5 : (updatePinNet (addConn (updatePinNet (addConn stN nid a.cname posA) a.cname posA (some nid)) nid b.cname posB) b.cname posB (some nid)).anon_net_counter = st.anon_net_counter + 1 := hcntN
      omega


/-- Witness for the amended C4: the first auto-named connection on `exB`
registers the fresh net `N$1`. -/
theorem C4_fresh_auto_net_amended_witness :
    (connectPins exB (.byName "c1") (.idx 0) (.byName "c2") (.idx 0) none false).2.nets =
      exB.nets ++ [(autoNameStr (exB.anon_net_counter + 1), exB.netHeap.length)] :=
  (C4_fresh_auto_net_amended exB (.byName "c1") (.byName "c2") (.idx 0) (.idx 0) false
    ⟨"c1", [⟨0, "p0", none⟩, ⟨1, "p1", none⟩]⟩ ⟨"c2", [⟨0, "q0", none⟩, ⟨1, "q1", none⟩]⟩ 0 0
    (by decide) (by decide) rfl rfl rfl rfl (by decide) (by decide) (by decide) (by decide)).2.1

/-! ## Claim C3 -/

/-- Claim C3: merging registered net `sid` into distinct registered net `tid`
on an unfrozen schematic satisfying the lockstep invariant succeeds, makes
the target's degree the sum of the two prior degrees, redirects every pin
formerly on the source to the target, and removes the source from the net
registry. -/
theorem C3_merge_degree (st : St) (tid sid : Nat) (tn sn : String)
    (hInv : Inv st) (ht : (tn, tid) ∈ st.nets) (hs : (sn, sid) ∈ st.nets)
    (hne : tid ≠ sid) (hfr : st.frozen = false) :
    (mergeNets st tid sid).1 = none ∧
    degree (netAt (mergeNets st tid sid).2 tid) =
      degree (netAt st tid) + degree (netAt st sid) ∧
    (∀ cn c pos, compAt? st cn = some c → pos < c.pins.length →
      (pinAt c pos).net = some sid →
      ∃ c2, compAt? (mergeNets st tid sid).2 cn = some c2 ∧
        (pinAt c2 pos).net = some tid) ∧
    ¬ regNet (mergeNets st tid sid).2 sid := by
  obtain ⟨⟨hRC, hRCnd⟩, ⟨hCW, hCWnd⟩, hNF, hCS, hPB⟩ := hInv
  have hsname : (netAt st sid).name = sn := (hRC (sn, sid) hs).2
  have htbound : tid < st.netHeap.length := (hRC (tn, tid) ht).1
  have hmeq := merge_core hs hsname hne hfr
  have h2 : (mergeNets st tid sid).2 =
      { foldMove tid (movePairs (netAt st sid).connections) st with
        nets := st.nets.filter (fun p => p.1 ≠ sn) } := by rw [hmeq]
  have hsets := hCS (sn, sid) hs
  have hmemPairs : ∀ k j, (k, j) ∈ movePairs (netAt st sid).connections ↔
      j ∈ (lookupKey (netAt st sid).connections k).getD [] := by
    intro k j
    rw [mem_movePairs]
    constructor
    · rintro ⟨e, he, rfl, hj⟩
      rcases e with ⟨e1, e2⟩
      rw [mem_lookupKey_of_nodup hsets.1 he]
      simpa using hj
    · intro hj
      cases hl : lookupKey (netAt st sid).connections k with
      | none => rw [hl] at hj; simp at hj
      | some s =>
        rw [hl] at hj
        simp only [Option.getD_some] at hj
        exact ⟨(k, s), lookupKey_mem hl, rfl, hj⟩
  refine ⟨by rw [hmeq], ?_, ?_, ?_⟩
  · have hself : netAt (mergeNets st tid sid).2 tid =
        { netAt st tid with
          connections := foldConns (movePairs (netAt st sid).connections)
            (netAt st tid).connections } := by
      rw [h2]
      exact netAt_foldMove_self _ _ st htbound
    rw [hself, degree_eq, degree_eq, degree_eq]
    have hnd : (movePairs (netAt st sid).connections).Nodup :=
      movePairs_nodup hsets.1 hsets.2
    have hdisj : ∀ pr ∈ movePairs (netAt st sid).connections,
        pr.2 ∉ (lookupKey (netAt st tid).connections pr.1).getD [] := by
      rintro ⟨k, j⟩ hpr hj
      obtain ⟨e, he, he1, hj2⟩ := mem_movePairs.mp hpr
      obtain ⟨cS, hcS, hbS⟩ := ConnOk_elim (hNF (sn, sid) hs e he)
      cases hl : lookupKey (netAt st tid).connections k with
      | none => rw [hl] at hj; simp at hj
      | some s =>
        rw [hl] at hj
        simp only [Option.getD_some] at hj
        obtain ⟨cT, hcT, hbT⟩ := ConnOk_elim (hNF (tn, tid) ht (k, s) (lookupKey_mem hl))
        rw [he1] at hcS
        rw [hcS] at hcT
        cases hcT
        have hSnet := (hbS j hj2).2
        have hTnet := (hbT j hj).2
        rw [hSnet] at hTnet
        exact hne (Option.some.inj hTnet).symm
    rw [degreeC_foldConns _ _ hnd hdisj, length_movePairs]
  · intro cn c pos hc hpos hnet
    have hcmem : (cn, c) ∈ st.components := lookupKey_mem hc
    have hidx : (pinAt c pos).index = pos :=
      (hCW (cn, c) hcmem).2.2.1 pos (List.mem_range.mpr hpos)
    have hback := hPB (cn, c) hcmem pos (List.mem_range.mpr hpos)
    have hlk : pos ∈ (lookupKey (netAt st sid).connections cn).getD [] := by
      have := (hback sid (by rw [hnet]; simp)).2
      rwa [hidx] at this
    have hinps : (cn, pos) ∈ movePairs (netAt st sid).connections :=
      (hmemPairs cn pos).mpr hlk
    obtain ⟨c2, hc2, _, _, _, hpins⟩ :=
      comp_foldMove tid (movePairs (netAt st sid).connections) st cn c hc
    refine ⟨c2, ?_, ?_⟩
    · rw [h2]
      exact hc2
    · rw [hpins pos hpos, if_pos hinps]
  · rintro ⟨p, hp, hpeq⟩
    rw [h2] at hp
    obtain ⟨hpmem, hpne⟩ := mem_filter_key_ne.mp hp
    have := (hRC p hpmem).2
    rw [hpeq, hsname] at this
    exact hpne this.symm

/-- Witness for C3: merging net `B` (degree 2) into net `A` (degree 2) in the
concrete schematic `exD` yields degree 4 on `A`. -/
theorem C3_merge_degree_witness :
    degree (netAt (mergeNets exD 0 1).2 0) = degree (netAt exD 0) + degree (netAt exD 1) :=
  (C3_merge_degree exD 0 1 "A" "B" (by decide) (by decide) (by decide)
    (by decide) (by decide)).2.1

/-! ## Claim C7 -/

/-- Claim C7: the eager star expansion and the lazy generator variant yield
exactly the same `(net, component, pin_index)` triples in the same order,
for every input vertex sequence. -/
theorem C7_star_expansions_agree (vs : List Vtx) :
    starExpansionFromVertices vs = starExpansionIter vs := by
  unfold starExpansionFromVertices starExpansionIter
  rw [starExp_outer]
  simp

/-! ## Claim C1 -/

/-- Claim C1 (counterexample): `connect_create_net` and `connect_pins` are not
atomic.  `connect_create_net` on an unknown component raises
`UnknownComponent` after having registered the new net, and `connect_pins`
on one and the same unconnected pin raises `AlreadyConnected` after having
created a net and attached the pin to it. -/
theorem C1_counterexample :
    (connectCreateNet St.init "N1" "X" (.idx 0)).1 = some (.UnknownComponent "X") ∧
    (connectCreateNet St.init "N1" "X" (.idx 0)).2.nets ≠ St.init.nets ∧
    (connectPins exB (.byName "c1") (.idx 0) (.byName "c1") (.idx 0) none false).1 =
      .error .AlreadyConnected ∧
    (connectPins exB (.byName "c1") (.idx 0) (.byName "c1") (.idx 0) none false).2 ≠ exB := by
  decide

/-- Claim C1 (amended): atomicity does hold for `add_net`, `add_component`
(including the construct-and-register form) and `connect`: whenever one of
them raises, the returned schematic state is exactly the input state. -/
theorem C1_atomicity_amended (st : St) :
    (∀ name g, (addNet st name g).1.isSome → (addNet st name g).2 = st) ∧
    (∀ c, (addComponent st c).1.isSome → (addComponent st c).2 = st) ∧
    (∀ n ps, (addComponentOp st n ps).1.isSome → (addComponentOp st n ps).2 = st) ∧
    (∀ nn cn sel, (schConnect st nn cn sel).1.isSome → (schConnect st nn cn sel).2 = st) := by
  have hAN : ∀ name g, (addNet st name g).1.isSome → (addNet st name g).2 = st := by
    intro name g h
    rcases hr : addNet st name g with ⟨oe, st2⟩
    have hr0 := hr
    unfold addNet at hr
    split at hr
    · cases hr; rfl
    · split at hr
      · cases hr; rfl
      · cases hr
        rw [hr0] at h
        simp at h
  have hAC : ∀ c, (addComponent st c).1.isSome → (addComponent st c).2 = st := by
    intro c h
    rcases hr : addComponent st c with ⟨oe, st2⟩
    have hr0 := hr
    unfold addComponent at hr
    split at hr
    · cases hr; rfl
    · split at hr
      · cases hr; rfl
      · cases hr
        rw [hr0] at h
        simp at h
  have hAO : ∀ n ps, (addComponentOp st n ps).1.isSome → (addComponentOp st n ps).2 = st := by
    intro n ps h
    rcases hm : mkComponent n ps with e | c
    · simp only [addComponentOp, hm]
    · simp only [addComponentOp, hm] at h ⊢
      exact hAC c h
  have hSC : ∀ nn cn sel, (schConnect st nn cn sel).1.isSome →
      (schConnect st nn cn sel).2 = st := by
    intro nn cn sel h
    rcases hr : schConnect st nn cn sel with ⟨oe, st2⟩
    have hr0 := hr
    unfold schConnect at hr
    split at hr
    · cases hr; rfl
    · split at hr
      · cases hr; rfl
      · split at hr
        · cases hr; rfl
        · cases oe with
          | none =>
            rw [hr0] at h
            simp at h
          | some e => exact netConnect_err hr
  exact ⟨hAN, hAC, hAO, hSC⟩

/-- Witness for the amended C1: registering a duplicate net name on `exG`
raises and leaves the state untouched. -/
theorem C1_atomicity_amended_witness :
    (addNet exG "N" false).1.isSome = true ∧ (addNet exG "N" false).2 = exG :=
  ⟨by decide, (C1_atomicity_amended exG).1 "N" false (by decide)⟩

/-! ## Claim C10 -/

/-- Claim C10: merging never transfers the ground flag.  The target keeps its
`is_ground`, every net keeps its `is_ground`, and the source's flag leaves the
registry with it; so when the unique ground net is merged as the source into a
non-ground target, `ground()` afterwards fails with `NoGround`. -/
theorem C10_merge_no_ground_transfer (st : St) (tid sid : Nat) (sn : String)
    (hs : (sn, sid) ∈ st.nets) (hsname : (netAt st sid).name = sn)
    (htlen : tid < st.netHeap.length) (hne : tid ≠ sid) (hfr : st.frozen = false)
    (hgr : st.nets.filter (fun p => (netAt st p.2).is_ground) = [(sn, sid)])
    (htg : (netAt st tid).is_ground = false) :
    (∀ nid, (netAt (mergeNets st tid sid).2 nid).is_ground = (netAt st nid).is_ground) ∧
    groundNet (mergeNets st tid sid).2 = .error .NoGround := by
  have hmeq := merge_core hs hsname hne hfr
  have h2 : (mergeNets st tid sid).2 =
      { foldMove tid (movePairs (netAt st sid).connections) st with
        nets := st.nets.filter (fun p => p.1 ≠ sn) } := by rw [hmeq]
  have hpres : ∀ nid,
      (netAt (mergeNets st tid sid).2 nid).is_ground = (netAt st nid).is_ground := by
    intro nid
    rw [h2]
    have hproj : netAt { foldMove tid (movePairs (netAt st sid).connections) st with
        nets := st.nets.filter (fun p => p.1 ≠ sn) } nid =
        netAt (foldMove tid (movePairs (netAt st sid).connections) st) nid := rfl
    rw [hproj]
    by_cases h : nid = tid
    · subst h
      rw [netAt_foldMove_self _ _ st htlen]
    · rw [netAt_foldMove_ne _ _ st h]
  refine ⟨hpres, ?_⟩
  have hnets : (mergeNets st tid sid).2.nets = st.nets.filter (fun p => p.1 ≠ sn) := by
    rw [h2]
  have hfil : (mergeNets st tid sid).2.nets.filter
      (fun p => (netAt (mergeNets st tid sid).2 p.2).is_ground) = [] := by
    rw [hnets, List.filter_congr (fun a _ => hpres a.2)]
    apply filter_filter_nil
    intro a ha hq
    have hmem : a ∈ st.nets.filter (fun p => (netAt st p.2).is_ground) :=
      List.mem_filter.mpr ⟨ha, hq⟩
    rw [hgr] at hmem
    have : a = (sn, sid) := by simpa using hmem
    subst this
    simp
  simp only [groundNet, hfil]

/-- Witness for C10: in `exK` (ground net `G`, plain net `T`), merging `G`
into `T` leaves the schematic with no ground net. -/
theorem C10_merge_no_ground_transfer_witness :
    groundNet (mergeNets exK 1 0).2 = .error .NoGround :=
  (C10_merge_no_ground_transfer exK 1 0 "G" (by decide) (by decide) (by decide)
    (by decide) (by decide) (by decide) (by decide)).2

/-! ## Claim C5 -/

/-- Claim C5: on a frozen schematic every mutator (`add_net`, `add_component`,
`connect`, `connect_create_net`, `connect_pins`) fails with `Frozen` before
any other check or state change, while the read accessors `nets`,
`components`, `net(name)` and `component(name)` return exactly what they
returned immediately before freezing. -/
theorem C5_frozen_rejection (st : St) (name : String) (g : Bool) (c : Component)
    (netName compName : String) (sel : PinSel) (ca cb : CompRef) (pa pb : PinSel)
    (nn : Option String) (am : Bool) :
    addNet (freeze st) name g = (some .Frozen, freeze st) ∧
    addComponent (freeze st) c = (some .Frozen, freeze st) ∧
    schConnect (freeze st) netName compName sel = (some .Frozen, freeze st) ∧
    connectCreateNet (freeze st) netName compName sel = (some .Frozen, freeze st) ∧
    connectPins (freeze st) ca pa cb pb nn am = (.error .Frozen, freeze st) ∧
    netsView (freeze st) = netsView st ∧
    componentsView (freeze st) = componentsView st ∧
    netByName (freeze st) name = netByName st name ∧
    compByName (freeze st) compName = compByName st compName :=
  ⟨rfl, rfl, rfl, rfl, rfl, rfl, rfl, rfl, rfl⟩

/-! ## Claim C8 -/

/-- Claim C8: whenever the resolved pin already references any net — the
target net itself included — `Net.connect` fails with `AlreadyConnected`
and leaves the schematic unchanged; reconnecting a pin to its current net
is an error, never a no-op. -/
theorem C8_already_connected (st : St) (nid : Nat) (cn : String) (sel : PinSel)
    (c : Component) (pos m : Nat)
    (hc : compAt? st cn = some c)
    (hres : resolvePinStrict c sel = .ok pos)
    (hnet : (pinAt c pos).net = some m) :
    netConnect st nid cn sel = (some .AlreadyConnected, st) := by
  simp only [netConnect, hc, hres, hnet]

/-- Witness for C8, in the same-net case: in `exH` pin 0 of component `c`
already references net 0, and reconnecting it to net 0 fails with
`AlreadyConnected` without changing the state. -/
theorem C8_already_connected_witness :
    netConnect exH 0 "c" (.idx 0) = (some .AlreadyConnected, exH) :=
  C8_already_connected exH 0 "c" (.idx 0) ⟨"c", [⟨0, "p", some 0⟩, ⟨1, "q", none⟩]⟩ 0 0
    (by decide) rfl (by decide)

/-! ## Claim C9 -/

/-- Claim C9: `Net.connect` has no frozen check.  On a frozen schematic,
calling it directly on a net still succeeds whenever the pin resolves in
bounds and is unconnected, recording the connection in the net's
connections map and setting the pin's back-reference, exactly as on the
unfrozen state. -/
theorem C9_net_connect_ignores_frozen (st : St) (nid : Nat) (cn : String) (sel : PinSel)
    (c : Component) (pos : Nat)
    (hc : compAt? st cn = some c)
    (hres : resolvePinStrict c sel = .ok pos)
    (hnet : (pinAt c pos).net = none) :
    netConnect (freeze st) nid cn sel =
      (none, freeze (updatePinNet (addConn st nid cn (pinAt c pos).index) cn pos (some nid))) ∧
    (freeze st).frozen = true := by
  refine ⟨?_, rfl⟩
  have hc2 : compAt? (freeze st) cn = some c := hc
  simp only [netConnect, hc2, hres, hnet]
  rfl

/-- Witness for C9: freezing the concrete schematic `exG` does not stop a
direct `Net.connect` of pin 0 of component `c` onto net 0. -/
theorem C9_net_connect_ignores_frozen_witness :
    netConnect (freeze exG) 0 "c" (.idx 0) =
      (none, freeze (updatePinNet (addConn exG 0 "c" 0) "c" 0 (some 0))) ∧
    (freeze exG).frozen = true :=
  C9_net_connect_ignores_frozen exG 0 "c" (.idx 0) ⟨"c", [⟨0, "p", none⟩, ⟨1, "q", none⟩]⟩ 0
    (by decide) rfl (by decide)

end SchemOrg
